/-
  Verification of the type-safe-api code-generation pipeline
  (OpenAPI normalization, hoisting, enrichment and naming passes).

  The definitions below are shallow embeddings of the TypeScript source:
  strings are Lean `String`s (the source operates on ASCII identifiers;
  the JS regexes involved use ASCII character classes), JS objects become
  structures, and in-place mutation becomes explicit state passing.
-/
import Mathlib

set_option maxRecDepth 10000

namespace TsApi

/-! ### ASCII character classes used by the source's regexes -/

/-- `[A-Z]` as in the source's regexes (ASCII only, no unicode flag). -/
def isUpperA (c : Char) : Bool := 'A' ≤ c && c ≤ 'Z'

/-- `[a-z]`. -/
def isLowerA (c : Char) : Bool := 'a' ≤ c && c ≤ 'z'

/-- `\d` = `[0-9]`. -/
def isDigitA (c : Char) : Bool := '0' ≤ c && c ≤ '9'

/-- `[a-zA-Z]`. -/
def isAlphaA (c : Char) : Bool := isUpperA c || isLowerA c

/-- `[a-zA-Z0-9]`. -/
def isAlnumA (c : Char) : Bool := isAlphaA c || isDigitA c

/-- `[-\s]` (ASCII whitespace subset of JS `\s`). -/
def isDashSpace (c : Char) : Bool :=
  c = '-' || c = ' ' || c = '\t' || c = '\n' || c = '\r' || c = '\x0b' || c = '\x0c'

theorem isUpperA_eq_toNat (c : Char) :
    isUpperA c = (decide (65 ≤ c.toNat) && decide (c.toNat ≤ 90)) := by
  have h1 : ('A' ≤ c) = (65 ≤ c.toNat) := by
    simp only [eq_iff_iff, Char.le_def, UInt32.le_def, BitVec.le_def]
    exact Iff.rfl
  have h2 : (c ≤ 'Z') = (c.toNat ≤ 90) := by
    simp only [eq_iff_iff, Char.le_def, UInt32.le_def, BitVec.le_def]
    exact Iff.rfl
  simp only [isUpperA, h1, h2]

theorem toNat_ofNat_valid {n : Nat} (h : n < 55296) : (Char.ofNat n).toNat = n := by
  unfold Char.ofNat
  rw [dif_pos (Or.inl h)]
  rfl

/-- ASCII `toLowerCase` produces no uppercase letter. -/
theorem isUpperA_toLower (c : Char) : isUpperA (Char.toLower c) = false := by
  show isUpperA (if c.toNat ≥ 65 ∧ c.toNat ≤ 90 then Char.ofNat (c.toNat + 32) else c) = false
  by_cases h : c.toNat ≥ 65 ∧ c.toNat ≤ 90
  · rw [if_pos h, isUpperA_eq_toNat, toNat_ofNat_valid (by omega)]
    simp only [Bool.and_eq_false_iff, decide_eq_false_iff_not]
    omega
  · rw [if_neg h, isUpperA_eq_toNat]
    simp only [Bool.and_eq_false_iff, decide_eq_false_iff_not]
    omega

/-- Length of the longest prefix satisfying `p`. -/
def countWhile (p : Char → Bool) : List Char → Nat
  | [] => 0
  | c :: rest => if p c then countWhile p rest + 1 else 0

theorem countWhile_le (p : Char → Bool) (l : List Char) : countWhile p l ≤ l.length := by
  induction l with
  | nil => simp [countWhile]
  | cons c rest ih =>
    simp only [countWhile, List.length_cons]
    split <;> omega

/-! ### `snakeCase` (source lines 134-142)

```
const snakeCase = (str) => str
  .replace(/\./g, '/')
  .replace(/\$/g, '__')
  .replace(/([A-Z]+)([A-Z][a-z][a-z]+)/g, (_m, g1, g2) => `${g1}_${g2}`)
  .replace(/([a-z\d])([A-Z])/g, (_m, g1, g2) => `${g1}_${g2}`)
  .replace(/[-\s]/g, '_')
  .toLowerCase();
```
Each `.replace` step is embedded as one pass below. -/

/-- `.replace(/\./g, '/')`. -/
def dotPass (l : List Char) : List Char := l.map (fun c => if c = '.' then '/' else c)

/-- `.replace(/\$/g, '__')`. -/
def dollarPass : List Char → List Char
  | [] => []
  | c :: rest => if c = '$' then '_' :: '_' :: dollarPass rest else c :: dollarPass rest

/-- `.replace(/([A-Z]+)([A-Z][a-z][a-z]+)/g, ...)`: the global regex matches at a
position exactly when a run of `k ≥ 2` capitals is immediately followed by at
least two lowercase letters (greedy `[A-Z]+` backtracks exactly one capital to
serve as the start of `([A-Z][a-z][a-z]+)`); the replacement inserts `_` before
that last capital, and scanning resumes after the matched lowercase run. -/
def acronymPassF : Nat → List Char → List Char
  | 0, l => l
  | _ + 1, [] => []
  | fuel + 1, c :: rest =>
    if isUpperA c then
      -- caps run starting at `c` has length `1 + k'`
      let k' := countWhile isUpperA rest
      let afterRun := rest.drop k'
      if k' ≥ 1 && (afterRun.take 2).length = 2 && (afterRun.take 2).all isLowerA then
        let m := countWhile isLowerA afterRun
        let g1 := c :: rest.take (k' - 1)
        let g2 := (rest.drop (k' - 1)).take 1 ++ afterRun.take m
        g1 ++ '_' :: g2 ++ acronymPassF fuel (afterRun.drop m)
      else
        c :: acronymPassF fuel rest
    else
      c :: acronymPassF fuel rest

/-- The scanner consumes at least one character per step, so fuel = length
is always sufficient. -/
def acronymPass (l : List Char) : List Char := acronymPassF l.length l

/-- `.replace(/([a-z\d])([A-Z])/g, ...)`: global scan, non-overlapping matches. -/
def lowerUpperPass : List Char → List Char
  | [] => []
  | [c] => [c]
  | c1 :: c2 :: rest =>
    if (isLowerA c1 || isDigitA c1) && isUpperA c2 then
      c1 :: '_' :: c2 :: lowerUpperPass rest
    else
      c1 :: lowerUpperPass (c2 :: rest)

/-- `.replace(/[-\s]/g, '_')`. -/
def dashPass (l : List Char) : List Char := l.map (fun c => if isDashSpace c then '_' else c)

/-- `.toLowerCase()` (ASCII). -/
def lowerPass (l : List Char) : List Char := l.map Char.toLower

/-- `snakeCase` from the source (custom, openapi-generator-compatible). -/
def snakeCase (s : String) : String :=
  (lowerPass (dashPass (lowerUpperPass (acronymPass (dollarPass (dotPass s.toList)))))).asString

/-! ### lodash `camelCase` / `upperFirst` (third-party dependency of the source)

The source uses lodash's `_camelCase` and `_upperFirst`.  These are modelled
here for ASCII identifier input: `words` splits on case boundaries / digit
boundaries / non-alphanumerics exactly as lodash's `unicodeWords` does on
ASCII words (lodash's ordinal-number special cases such as `1st` are not
reproduced; no input in this development contains them), falling back to
alphanumeric runs (`asciiWords`) when the input has no case/digit boundary
and no special character. -/

/-- lodash's `hasUnicodeWord` regex
`/[a-z][A-Z]|[A-Z]{2}[a-z]|[0-9][a-zA-Z]|[a-zA-Z][0-9]|[^a-zA-Z0-9 ]/` on ASCII. -/
def hasUnicodeWord : List Char → Bool
  | [] => false
  | [c] => !(isAlnumA c || c = ' ')
  | c1 :: c2 :: rest =>
    (isLowerA c1 && isUpperA c2) || (isDigitA c1 && isAlphaA c2) ||
    (isAlphaA c1 && isDigitA c2) ||
    (match rest with
     | c3 :: _ => isUpperA c1 && isUpperA c2 && isLowerA c3
     | [] => false) ||
    !(isAlnumA c1 || c1 = ' ') || hasUnicodeWord (c2 :: rest)

/-- lodash `asciiWords`: maximal alphanumeric runs (fuel-based scanner; each
step consumes at least one character, so fuel = length suffices). -/
def asciiWordsF : Nat → List Char → List (List Char)
  | 0, _ => []
  | _ + 1, [] => []
  | fuel + 1, c :: rest =>
    if isAlnumA c then
      let k := countWhile isAlnumA rest
      (c :: rest.take k) :: asciiWordsF fuel (rest.drop k)
    else
      asciiWordsF fuel rest

def asciiWords (l : List Char) : List (List Char) := asciiWordsF l.length l

/-- lodash `unicodeWords` restricted to ASCII: case-boundary word splitting
(fuel-based scanner; each step consumes at least one character). -/
def uWordsF : Nat → List Char → List (List Char)
  | 0, _ => []
  | _ + 1, [] => []
  | fuel + 1, c :: rest =>
    if isLowerA c then
      let k := countWhile isLowerA rest
      (c :: rest.take k) :: uWordsF fuel (rest.drop k)
    else if isDigitA c then
      let k := countWhile isDigitA rest
      (c :: rest.take k) :: uWordsF fuel (rest.drop k)
    else if isUpperA c then
      let k' := countWhile isUpperA rest
      let afterRun := rest.drop k'
      if (afterRun.take 1).all isLowerA && (afterRun.take 1).length = 1 then
        if k' ≥ 1 then
          -- an all-caps run followed by a capitalized word: split before the last capital
          (c :: rest.take (k' - 1)) :: uWordsF fuel (rest.drop (k' - 1))
        else
          let m := countWhile isLowerA afterRun
          (c :: afterRun.take m) :: uWordsF fuel (afterRun.drop m)
      else
        (c :: rest.take k') :: uWordsF fuel afterRun
    else
      uWordsF fuel rest

def uWords (l : List Char) : List (List Char) := uWordsF l.length l

/-- lodash `words` (no pattern argument). -/
def lodashWords (l : List Char) : List (List Char) :=
  if hasUnicodeWord l then uWords l else asciiWords l

/-- lodash `upperFirst` (ASCII). -/
def upperFirst (s : String) : String :=
  match s.toList with
  | [] => s
  | c :: rest => (Char.toUpper c :: rest).asString

/-- lodash `camelCase`: `words`, lowercased, first word as-is and the rest
capitalized. -/
def camelCase (s : String) : String :=
  match (lodashWords s.toList).map (fun w => (w.map Char.toLower).asString) with
  | [] => ""
  | w :: ws => w ++ String.join (ws.map upperFirst)

/-- `_upperFirst(_camelCase(...))` as used throughout the source. -/
def pascalCase (s : String) : String := upperFirst (camelCase s)

example : camelCase "getWidget" = "getWidget" := by decide
example : pascalCase "getWidget" = "GetWidget" := by decide
example : camelCase "with" = "with" := by decide
example : pascalCase "HTTPResponse" = "HttpResponse" := by decide

/-! ### Reserved-word tables and per-target name projection (source 144-216) -/

/-- `PYTHON_KEYWORDS` (source lines 145-160). -/
def PYTHON_KEYWORDS : List String :=
  ["all_params", "resource_path", "path_params", "query_params",
   "header_params", "form_params", "local_var_files", "body_params", "auth_settings",
   "property",
   "schema", "base64", "json",
   "date", "float",
   "and", "del", "from", "not", "while", "as", "elif", "global", "or", "with",
   "assert", "else", "if", "pass", "yield", "break", "except", "import",
   "print", "class", "exec", "in", "raise", "continue", "finally", "is",
   "return", "def", "for", "lambda", "try", "self", "nonlocal", "None", "True",
   "False", "async", "await"]

/-- The three kinds of named entity `toPythonName` distinguishes. -/
inductive NamedEntity | model | property | operation
deriving DecidableEq, Repr

/-- `toPythonName` (source lines 162-181). -/
def toPythonName (namedEntity : NamedEntity) (name : String) : String :=
  let nameSnakeCase := snakeCase name
  let startsUnderscore := name.toList.head? = some '_'
  let testName := if startsUnderscore then (name.toList.drop 1).asString else name
  if PYTHON_KEYWORDS.contains testName then
    let nameSuffix := if startsUnderscore then nameSnakeCase else "_" ++ nameSnakeCase
    match namedEntity with
    | .model => "model" ++ nameSuffix
    | .operation => "call" ++ nameSuffix
    | .property => "var" ++ nameSnakeCase
  else
    nameSnakeCase

/-- `JAVA_KEYWORDS` (source lines 184-202). -/
def JAVA_KEYWORDS : List String :=
  ["object", "list", "file",
   "localVarPath", "localVarQueryParams", "localVarCollectionQueryParams",
   "localVarHeaderParams", "localVarCookieParams", "localVarFormParams", "localVarPostBody",
   "localVarAccepts", "localVarAccept", "localVarContentTypes",
   "localVarContentType", "localVarAuthNames", "localReturnType",
   "ApiClient", "ApiException", "ApiResponse", "Configuration", "StringUtil",
   "_", "abstract", "continue", "for", "new", "switch", "assert",
   "default", "if", "package", "synchronized", "boolean", "do", "goto", "private",
   "this", "break", "double", "implements", "protected", "throw", "byte", "else",
   "import", "public", "throws", "case", "enum", "instanceof", "return", "transient",
   "catch", "extends", "int", "short", "try", "char", "final", "interface", "static",
   "void", "class", "finally", "long", "strictfp", "volatile", "const", "float",
   "native", "super", "while", "null", "offsetdatetime", "localdate", "localtime"]

/-- `toJavaName` (source lines 204-216). -/
def toJavaName (name : String) : String :=
  let startsUnderscore := name.toList.head? = some '_'
  let unescapedName := camelCase (if startsUnderscore then (name.toList.drop 1).asString else name)
  if JAVA_KEYWORDS.contains unescapedName then
    if unescapedName = "class" then "propertyClass" else "_" ++ unescapedName
  else
    unescapedName

example : toPythonName .property "with" = "varwith" := by decide
example : toJavaName "with" = "with" := by decide
example : toJavaName "class" = "propertyClass" := by decide
example : toJavaName "if" = "_if" := by decide

/-! ### Collection-format translation (source lines 924-935) -/

/-- OpenAPI v3 parameter styles (the source's lookup table maps the four listed
styles and falls back to `multi` for any other style). -/
inductive ParamStyle
  | form | simple | spaceDelimited | pipeDelimited | deepObject | matrix | label
deriving DecidableEq, Repr

/-- Parameter location, restricted to the two locations the translation covers. -/
inductive ParamLoc | query | header
deriving DecidableEq, Repr

/-- Translation of `style`/`explode` to the legacy `collectionFormat`
(source lines 924-935):

```
const style = specParameter.style ?? (parameter.in === "query" ? "form" : "simple");
const explode = specParameter.explode ?? style === "form";
if (parameter.in === "query") {
  collectionFormat = explode ? "multi"
    : ({ spaceDelimited: "ssv", pipeDelimited: "tsv", simple: "csv", form: "csv" }[style] ?? "multi");
} else {
  collectionFormat = explode ? "multi" : "csv";
}
``` -/
def collectionFormat (loc : ParamLoc) (styleArg : Option ParamStyle) (explodeArg : Option Bool) :
    String :=
  let style := styleArg.getD (match loc with | .query => .form | .header => .simple)
  let explode := explodeArg.getD (style = ParamStyle.form)
  match loc with
  | .query =>
    if explode then "multi"
    else
      match style with
      | .spaceDelimited => "ssv"
      | .pipeDelimited => "tsv"
      | .simple => "csv"
      | .form => "csv"
      | _ => "multi"
  | .header => if explode then "multi" else "csv"

/-! ### Default-response aliasing (source lines 843-854)

The operation responses are produced by the external parser
(`getOperationResponses` / `getOperationResponse` from `parse-openapi`, an
out-of-scope leaf dependency).  A parsed response model is embedded as a
numeric `code` plus an opaque `payload` standing for all remaining fields,
compared by structural (deep) equality exactly as the source's `_isEqual`;
the parser itself is passed in as a pure boundary function
`parse : String → Nat → OpResponse` (raw response ↦ code ↦ model). -/

/-- A parsed operation response (external parser's response Model): a numeric
status code plus the rest of the model, compared structurally. -/
structure OpResponse where
  code : Nat
  payload : String
deriving DecidableEq, Repr

/-- Numeric parse of a status-code key (kernel-computable `String.toNat?`). -/
def strToNatA (s : String) : Option Nat :=
  let l := s.toList
  if l ≠ [] ∧ l.all isDigitA then
    some (l.foldl (fun n c => n * 10 + (c.toNat - 48)) 0)
  else none

/-- Modelled from the spec: the external parser merges every declared response
code into a numeric code — a numeric key parses to its value and the `default`
key is parsed at code 200 (the source compares against
`getOperationResponse(spec, defaultResponse, 200)`). -/
def parseResponseCode (s : String) : Option Nat :=
  if s = "default" then some 200 else strToNatA s

/-- Modelled from the spec: `getOperationResponses` — one parsed model per
declared response entry. -/
def mergeOperationResponses (raw : List (String × String))
    (parse : String → Nat → OpResponse) : List OpResponse :=
  raw.filterMap (fun e => (parseResponseCode e.1).map (parse e.2))

/-- The aliasing loop of `buildData` (source lines 843-854): a response with
code 200 that is structurally identical to the parsed-at-200 default response
has its code rewritten to the sentinel 0. -/
def normalizeResponseCodes (responses : List OpResponse) (defaultRaw : Option String)
    (parse : String → Nat → OpResponse) : List OpResponse :=
  responses.map (fun r =>
    if r.code = 200 ∧ some r = defaultRaw.map (fun d => parse d 200) then { r with code := 0 }
    else r)

/-- The declared `default` raw response of an operation (JS object lookup). -/
def findDefaultRaw (raw : List (String × String)) : Option String :=
  (raw.find? (fun e => e.1 = "default")).map (·.2)

/-- The full response pipeline for one operation: external merge followed by
default aliasing. -/
def operationResponses (raw : List (String × String))
    (parse : String → Nat → OpResponse) : List OpResponse :=
  normalizeResponseCodes (mergeOperationResponses raw parse) (findDefaultRaw raw) parse

/-! ### File assembly (`splitAndWriteFiles`, source lines 248-302)

Sentinel splitting and JSON parsing of the per-segment header are abstracted:
the input is the list of already-split segments (header + contents) per
rendered template.  The file system is a pure existence predicate on the path
the source actually checks (`path.join(config.dir, name + ext)`). -/

structure WriteFileConfig where
  id : Option String
  dir : String
  name : String
  ext : String
  overwrite : Bool
  generateConditionallyId : Option String
deriving DecidableEq, Repr

/-- A parsed `###TSAPI_WRITE_FILE###` segment. -/
structure RawSegment where
  config : WriteFileConfig
  contents : String
deriving DecidableEq, Repr

structure SplitFile where
  contents : String
  pathRelativeToOutputPath : String
  config : WriteFileConfig
  shouldWrite : Bool
deriving DecidableEq, Repr

/-- `path.join` on two non-degenerate relative segments. -/
def pathJoin (a b : String) : String :=
  if a = "" ∨ a = "." then b else a ++ "/" ++ b

/-- First loop of `splitAndWriteFiles`: destination resolution and the
exists/overwrite check. -/
def splitFilesOf (segments : List RawSegment) (fsExists : String → Bool) : List SplitFile :=
  segments.map fun seg =>
    let newFileName := seg.config.name ++ seg.config.ext
    let newFilePath := pathJoin seg.config.dir newFileName
    { contents := seg.contents
      pathRelativeToOutputPath := newFilePath
      config := seg.config
      shouldWrite := !fsExists newFilePath || seg.config.overwrite }

/-- JS truthiness of `config.id` (an empty id is falsy and filtered out of
`splitFilesById`). -/
def truthyId (c : WriteFileConfig) : Option String :=
  match c.id with
  | some i => if i = "" then none else some i
  | none => none

/-- `splitFilesById[key]` — `Object.fromEntries` keeps the last entry per key. -/
def lookupById (files : List SplitFile) (key : String) : Option SplitFile :=
  (files.filter (fun s => truthyId s.config = some key)).getLast?

/-- `splitFilesById[config.generateConditionallyId ?? '']?.shouldWrite ?? true`. -/
def conditionalShouldWrite (s : SplitFile) (files : List SplitFile) : Bool :=
  match lookupById files (s.config.generateConditionallyId.getD "") with
  | some t => t.shouldWrite
  | none => true

/-- The segments actually written by `splitAndWriteFiles` (in order). -/
def writtenFiles (segments : List RawSegment) (fsExists : String → Bool) : List SplitFile :=
  let files := splitFilesOf segments fsExists
  files.filter (fun s => s.shouldWrite && conditionalShouldWrite s files)

/-- The manifest recorded by `splitAndWriteFiles`: the relative paths of
written files that have `overwrite` set. -/
def writtenManifest (segments : List RawSegment) (fsExists : String → Bool) : List String :=
  ((writtenFiles segments fsExists).filter (fun s => s.config.overwrite)).map
    (·.pathRelativeToOutputPath)

/-- Claim C10 as stated: a segment is written iff its exists/overwrite check
passes and, when `generateConditionallyId` names a segment, that segment *was
itself written*. -/
def Claim10Statement (segments : List RawSegment) (fsExists : String → Bool) : Prop :=
  ∀ s ∈ splitFilesOf segments fsExists,
    (s ∈ writtenFiles segments fsExists ↔
      ((!fsExists s.pathRelativeToOutputPath || s.config.overwrite) = true ∧
       (match s.config.generateConditionallyId with
        | some gid =>
          match lookupById (splitFilesOf segments fsExists) gid with
          | some t => t ∈ writtenFiles segments fsExists
          | none => True
        | none => True)))

/-! ### Composite-model resolution (`ensureCompositeModels`, source lines 304-342)

`parse-openapi` models relevant to composite resolution: the top-level model
list, each model carrying its kind (the parser's `export` field, a reserved
word in Lean, embedded as `exportType`) and its property list, where unnamed
properties of a composed model are its composition branches.  The in-place
mutation (`composedModels` / `composedPrimitives` attachment) becomes an
explicit result map from model name to attached info, and the identity-based
`visited` set becomes a list of model names (the top-level models the
recursion ranges over are identified by name).

The recursion is guarded by the visited set; it is embedded with a fuel
parameter (structural, hence executable): a fresh model name is consumed from
the finite name pool at every nesting level, so nesting depth never exceeds
`models.length + 1` and the fuel-exhaustion branch is unreachable from
`ensureCompositeModels`. -/

/-- A `parse-openapi` property as consumed by composite resolution. -/
structure CProp where
  name : String
  exportType : String
  type : String
deriving DecidableEq, Repr

/-- A top-level `parse-openapi` model as consumed by composite resolution. -/
structure CModel where
  name : String
  exportType : String
  properties : List CProp
deriving DecidableEq, Repr

/-- `COMPOSED_SCHEMA_TYPES` (source line 305). -/
def COMPOSED_SCHEMA_TYPES : List String := ["one-of", "any-of", "all-of"]

/-- `modelsByName[...]` built by `Object.fromEntries` — the last entry wins. -/
def lookupModel (models : List CModel) (n : String) : Option CModel :=
  (models.filter (fun m => m.name = n)).getLast?

/-- The message of the `InvalidComposition` error (source line 335). -/
def invalidCompositionMsg (name : String) : String :=
  "Schema \"" ++ name ++ "\" defines allOf with non-object types. allOf may only compose object types in the OpenAPI specification."

/-- The data attached to a composed model by the pass. -/
structure CompositeInfo where
  composedModels : List String
  composedPrimitives : List CProp
deriving DecidableEq, Repr

/-- Pass state: the visited set (most recent first) and the attached info in
completion order. -/
structure CompSt where
  visited : List String
  info : List (String × CompositeInfo)
deriving DecidableEq, Repr

/-- The unnamed reference properties of a composed model (its object members). -/
def referenceMembers (m : CModel) : List CProp :=
  m.properties.filter (fun p => p.name = "" ∧ p.exportType = "reference")

/-- The unnamed non-reference properties (inline primitive members). -/
def primitiveMembers (m : CModel) : List CProp :=
  m.properties.filter (fun p => p.name = "" ∧ p.exportType ≠ "reference")

/-- `mutateModelWithCompositeProperties` (source lines 319-342). -/
def mutateModelWithCompositeProps (models : List CModel) :
    Nat → CModel → CompSt → Except String CompSt
  | 0, _, st => .ok st
  | fuel + 1, m, st =>
    if m.exportType ∈ COMPOSED_SCHEMA_TYPES ∧ m.name ∉ st.visited then
      let st1 : CompSt := { st with visited := m.name :: st.visited }
      let composedPrimitives := primitiveMembers m
      let composedModels := (referenceMembers m).filterMap (fun r => lookupModel models r.type)
      -- recursively resolve referenced members first
      match composedModels.foldl
          (fun (acc : Except String CompSt) mem =>
            acc.bind (fun s => mutateModelWithCompositeProps models fuel mem s))
          (.ok st1) with
      | .error e => .error e
      | .ok st2 =>
        if m.exportType = "all-of" ∧ composedPrimitives ≠ [] then
          .error (invalidCompositionMsg m.name)
        else
          .ok { st2 with
                info := st2.info ++
                  [(m.name, { composedModels := composedModels.map CModel.name
                              composedPrimitives := composedPrimitives })] }
    else .ok st

/-- `ensureCompositeModels` (source lines 314-317). -/
def ensureCompositeModels (models : List CModel) : Except String CompSt :=
  models.foldl
    (fun acc m => acc.bind (fun st => mutateModelWithCompositeProps models (models.length + 1) m st))
    (.ok { visited := [], info := [] })

/-- An offending model: an `allOf` composing a non-object (non-reference)
member. -/
def Offending (m : CModel) : Prop :=
  m.exportType = "all-of" ∧ primitiveMembers m ≠ []

instance : DecidablePred Offending := fun m => by
  unfold Offending; infer_instance

/-- The info the pass attaches to a composed model: the resolvable direct
members (in declaration order), and the inline primitive members. -/
def directInfo (models : List CModel) (m : CModel) : CompositeInfo :=
  { composedModels := ((referenceMembers m).filterMap (fun r => lookupModel models r.type)).map CModel.name
    composedPrimitives := primitiveMembers m }

/-- Names of the resolvable direct members of a composed model. -/
def directMemberNames (models : List CModel) (m : CModel) : List String :=
  (directInfo models m).composedModels

/-- Transitive flattening of composed members (the claim's notion): `b` is a
transitively flattened member of model `a` when it is a direct member or a
member of a member. -/
inductive TransMember (models : List CModel) : String → String → Prop
  | direct {m : CModel} {b : String} :
      m ∈ models → b ∈ directMemberNames models m → TransMember models b m.name
  | nest {m : CModel} {b c : String} :
      m ∈ models → b ∈ directMemberNames models m → TransMember models c b →
      TransMember models c m.name

/-! #### Characterization of the composite pass -/

/-- The member-recursion fold of `mutateModelWithCompositeProps`. -/
def compFold (models : List CModel) (fuel : Nat) (ms : List CModel) (st : CompSt) :
    Except String CompSt :=
  ms.foldl
    (fun (acc : Except String CompSt) mem =>
      acc.bind (fun s => mutateModelWithCompositeProps models fuel mem s))
    (.ok st)

theorem compFold_nil (models : List CModel) (fuel : Nat) (st : CompSt) :
    compFold models fuel [] st = .ok st := rfl

theorem foldl_error (models : List CModel) (fuel : Nat) (ms : List CModel) (e : String) :
    ms.foldl
      (fun (acc : Except String CompSt) mem =>
        acc.bind (fun s => mutateModelWithCompositeProps models fuel mem s))
      (.error e) = .error e := by
  induction ms with
  | nil => rfl
  | cons mem rest ih => simpa [List.foldl_cons, Except.bind] using ih

theorem compFold_cons (models : List CModel) (fuel : Nat) (mem : CModel) (rest : List CModel)
    (st : CompSt) :
    compFold models fuel (mem :: rest) st =
      match mutateModelWithCompositeProps models fuel mem st with
      | .error e => .error e
      | .ok st1 => compFold models fuel rest st1 := by
  show List.foldl _ (mutateModelWithCompositeProps models fuel mem st) rest = _
  cases h : mutateModelWithCompositeProps models fuel mem st with
  | error e => exact foldl_error models fuel rest e
  | ok st1 => rfl

/-- Unfolding equation for the pass at positive fuel. -/
theorem mutateModel_eq (models : List CModel) (fuel : Nat) (m : CModel) (st : CompSt) :
    mutateModelWithCompositeProps models (fuel + 1) m st =
      if m.exportType ∈ COMPOSED_SCHEMA_TYPES ∧ m.name ∉ st.visited then
        match compFold models fuel
            ((referenceMembers m).filterMap (fun r => lookupModel models r.type))
            { st with visited := m.name :: st.visited } with
        | .error e => .error e
        | .ok st2 =>
          if m.exportType = "all-of" ∧ primitiveMembers m ≠ [] then
            .error (invalidCompositionMsg m.name)
          else
            .ok { st2 with
                  info := st2.info ++
                    [(m.name, directInfo models m)] }
      else .ok st := rfl

/-- Number of model names not yet visited: the termination measure of the
visited-set recursion. -/
def compMeasure (models : List CModel) (visited : List String) : Nat :=
  ((models.map CModel.name).filter (fun n => n ∉ visited)).length

theorem filter_notmem_sub_le (l v : List String) (n : String) :
    (l.filter (fun x => x ∉ n :: v)).length ≤ (l.filter (fun x => x ∉ v)).length := by
  rw [← List.countP_eq_length_filter, ← List.countP_eq_length_filter]
  exact List.countP_mono_left (fun x _ hx => by
    simp only [decide_eq_true_eq, List.mem_cons, not_or] at hx ⊢
    exact hx.2)

theorem filter_notmem_cons_lt {l v : List String} {n : String} (hn : n ∈ l) (hv : n ∉ v) :
    (l.filter (fun x => x ∉ n :: v)).length < (l.filter (fun x => x ∉ v)).length := by
  induction l with
  | nil => cases hn
  | cons a l ih =>
    simp only [List.filter_cons]
    by_cases han : a = n
    · subst han
      rw [if_neg (by simp), if_pos (by simpa using hv)]
      have hmono := filter_notmem_sub_le l v a
      simp only [List.length_cons]
      omega
    · have hn' : n ∈ l := by
        rcases List.mem_cons.mp hn with h | h
        · exact absurd h.symm han
        · exact h
      have h1 := ih hn'
      by_cases hav : a ∈ v
      · rw [if_neg (by simp [hav]), if_neg (by simp [hav])]
        exact h1
      · rw [if_pos (by simp [List.mem_cons, han, hav]), if_pos (by simp [hav])]
        simp only [List.length_cons]
        omega

theorem compMeasure_mono (models : List CModel) {v v' : List String} (h : v ⊆ v') :
    compMeasure models v' ≤ compMeasure models v := by
  unfold compMeasure
  rw [← List.countP_eq_length_filter, ← List.countP_eq_length_filter]
  exact List.countP_mono_left (fun x _ hx => by
    simp only [decide_eq_true_eq] at hx ⊢
    exact fun hv => hx (h hv))

theorem compMeasure_cons_lt (models : List CModel) {v : List String} {n : String}
    (hn : n ∈ models.map CModel.name) (hv : n ∉ v) :
    compMeasure models (n :: v) < compMeasure models v :=
  filter_notmem_cons_lt hn hv

/-- Every attached info entry describes a composed, non-offending model with
its direct members. -/
def InfoInv (models : List CModel) (st : CompSt) : Prop :=
  ∀ e ∈ st.info, ∃ m' ∈ models, m'.name = e.1 ∧ m'.exportType ∈ COMPOSED_SCHEMA_TYPES ∧
    ¬ Offending m' ∧ e.2 = directInfo models m'

/-- Relation between a state and a successor state of the pass: visited only
grows; info grows by entries whose names are fresh (not previously visited),
pairwise distinct, and visited afterwards; and any visited-but-unrecorded name
was already visited before the step. -/
def StepOk (st st' : CompSt) : Prop :=
  st.visited ⊆ st'.visited ∧
  (∃ Δ, st'.info = st.info ++ Δ ∧ (Δ.map Prod.fst).Nodup ∧
    ∀ n ∈ Δ.map Prod.fst, n ∉ st.visited ∧ n ∈ st'.visited) ∧
  (∀ n, n ∈ st'.visited → n ∉ st'.info.map Prod.fst → n ∈ st.visited)

theorem StepOk.refl (st : CompSt) : StepOk st st :=
  ⟨fun _ h => h, ⟨[], by simp⟩, fun _ h _ => h⟩

theorem StepOk.trans {s1 s2 s3 : CompSt} (h12 : StepOk s1 s2) (h23 : StepOk s2 s3) :
    StepOk s1 s3 := by
  obtain ⟨hv12, ⟨d1, hi1, hn1, hf1⟩, hp12⟩ := h12
  obtain ⟨hv23, ⟨d2, hi2, hn2, hf2⟩, hp23⟩ := h23
  refine ⟨fun n hn => hv23 (hv12 hn), ⟨d1 ++ d2, ?_, ?_, ?_⟩, ?_⟩
  · rw [hi2, hi1, List.append_assoc]
  · rw [List.map_append]
    refine List.Nodup.append hn1 hn2 (fun n hn1' hn2' => ?_)
    exact (hf2 n hn2').1 (hf1 n hn1').2
  · intro n hn
    rw [List.map_append, List.mem_append] at hn
    rcases hn with h | h
    · exact ⟨(hf1 n h).1, hv23 (hf1 n h).2⟩
    · refine ⟨fun hv => (hf2 n h).1 (hv12 hv), (hf2 n h).2⟩
  · intro n hn hni
    have h2 : n ∉ s2.info.map Prod.fst := by
      intro hmem
      exact hni (by rw [hi2, List.map_append]; exact List.mem_append_left _ hmem)
    exact hp12 n (hp23 n hn hni) h2

theorem lookupModel_mem {models : List CModel} {n : String} {m : CModel}
    (h : lookupModel models n = some m) : m ∈ models := by
  unfold lookupModel at h
  have := List.mem_of_getLast?_eq_some h
  exact List.mem_of_mem_filter this

/-- The result property of one call of the pass. -/
abbrev GoProp (models : List CModel) (m : CModel) (st : CompSt)
    (res : Except String CompSt) : Prop :=
  match res with
  | .error e => ∃ w ∈ models, Offending w ∧ e = invalidCompositionMsg w.name
  | .ok st' => StepOk st st' ∧ InfoInv models st' ∧
      (m.exportType ∈ COMPOSED_SCHEMA_TYPES → m.name ∈ st'.visited)

/-- The result property of the member-recursion fold. -/
abbrev FoldProp (models : List CModel) (ms : List CModel) (st : CompSt)
    (res : Except String CompSt) : Prop :=
  match res with
  | .error e => ∃ w ∈ models, Offending w ∧ e = invalidCompositionMsg w.name
  | .ok st' => StepOk st st' ∧ InfoInv models st' ∧
      (∀ x ∈ ms, x.exportType ∈ COMPOSED_SCHEMA_TYPES → x.name ∈ st'.visited)

/-- Main characterization of `mutateModelWithCompositeProps`: with enough fuel
(more than the number of unvisited model names), the pass either fails with an
`InvalidComposition` naming an offending model, or succeeds extending the
state per `StepOk`/`InfoInv` and covering the processed composed model. -/
theorem go_char (models : List CModel) :
    ∀ (fuel : Nat) (m : CModel) (st : CompSt), m ∈ models →
      compMeasure models st.visited < fuel → InfoInv models st →
      GoProp models m st (mutateModelWithCompositeProps models fuel m st) := by
  intro fuel
  induction fuel with
  | zero => intro m st _ hlt _; omega
  | succ fuel ih =>
    -- the member fold at fuel
    have fold_char : ∀ (ms : List CModel) (st : CompSt), (∀ x ∈ ms, x ∈ models) →
        compMeasure models st.visited < fuel → InfoInv models st →
        FoldProp models ms st (compFold models fuel ms st) := by
      intro ms
      induction ms with
      | nil =>
        intro st _ _ hinv
        rw [compFold_nil]
        exact ⟨StepOk.refl st, hinv, fun x hx => absurd hx (List.not_mem_nil x)⟩
      | cons mem rest ihl =>
        intro st hms hlt hinv
        rw [compFold_cons]
        have hmem := ih mem st (hms mem (List.mem_cons_self mem rest)) hlt hinv
        cases hgo : mutateModelWithCompositeProps models fuel mem st with
        | error e =>
          rw [hgo] at hmem
          exact hmem
        | ok st1 =>
          rw [hgo] at hmem
          obtain ⟨hstep1, hinv1, hcov1⟩ := hmem
          have hlt1 : compMeasure models st1.visited < fuel :=
            Nat.lt_of_le_of_lt (compMeasure_mono models hstep1.1) hlt
          have hrest := ihl st1 (fun x hx => hms x (List.mem_cons_of_mem mem hx)) hlt1 hinv1
          show FoldProp models (mem :: rest) st (compFold models fuel rest st1)
          cases hfold : compFold models fuel rest st1 with
          | error e =>
            rw [hfold] at hrest
            exact hrest
          | ok st2 =>
            rw [hfold] at hrest
            obtain ⟨hstep2, hinv2, hcov2⟩ := hrest
            refine ⟨hstep1.trans hstep2, hinv2, ?_⟩
            intro x hx hcomp
            rcases List.mem_cons.mp hx with rfl | hx'
            · exact hstep2.1 (hcov1 hcomp)
            · exact hcov2 x hx' hcomp
    -- the per-model body
    intro m st hm hlt hinv
    rw [mutateModel_eq]
    by_cases hguard : m.exportType ∈ COMPOSED_SCHEMA_TYPES ∧ m.name ∉ st.visited
    · rw [if_pos hguard]
      set st1 : CompSt := { st with visited := m.name :: st.visited } with hst1
      have hlt1 : compMeasure models st1.visited < fuel := by
        have hdec : compMeasure models st1.visited < compMeasure models st.visited :=
          compMeasure_cons_lt models (List.mem_map_of_mem CModel.name hm) hguard.2
        omega
      have hms : ∀ x ∈ (referenceMembers m).filterMap (fun r => lookupModel models r.type),
          x ∈ models := by
        intro x hx
        obtain ⟨r, _, hr⟩ := List.mem_filterMap.mp hx
        exact lookupModel_mem hr
      have hinv1 : InfoInv models st1 := hinv
      have hfoldres := fold_char _ st1 hms hlt1 hinv1
      cases hfold : compFold models fuel
          ((referenceMembers m).filterMap (fun r => lookupModel models r.type)) st1 with
      | error e =>
        rw [hfold] at hfoldres
        exact hfoldres
      | ok st2 =>
        rw [hfold] at hfoldres
        obtain ⟨hstep, hinv2, _⟩ := hfoldres
        show GoProp models m st
          (if m.exportType = "all-of" ∧ primitiveMembers m ≠ [] then
            .error (invalidCompositionMsg m.name)
          else .ok { st2 with info := st2.info ++ [(m.name, directInfo models m)] })
        by_cases hbad : m.exportType = "all-of" ∧ primitiveMembers m ≠ []
        · rw [if_pos hbad]
          exact ⟨m, hm, hbad, rfl⟩
        · rw [if_neg hbad]
          have hvis1 : m.name ∈ st2.visited := hstep.1 (List.mem_cons_self m.name st.visited)
          refine ⟨?_, ?_, fun _ => hvis1⟩
          · -- StepOk st (st2 + entry for m)
            obtain ⟨hsub, ⟨Δ, hΔ, hΔnd, hΔf⟩, hpend⟩ := hstep
            refine ⟨fun n hn => hsub (List.mem_cons_of_mem _ hn),
                    ⟨Δ ++ [(m.name, directInfo models m)], ?_, ?_, ?_⟩, ?_⟩
            · show st2.info ++ _ = st.info ++ _
              rw [hΔ, List.append_assoc]
            · rw [List.map_append]
              refine List.Nodup.append hΔnd (by simp) ?_
              intro n hn1 hn2
              simp only [List.map_cons, List.map_nil, List.mem_singleton] at hn2
              subst hn2
              exact (hΔf _ hn1).1 (List.mem_cons_self _ _)
            · intro n hn
              rw [List.map_append, List.mem_append] at hn
              rcases hn with h | h
              · have := hΔf n h
                exact ⟨fun hv => this.1 (List.mem_cons_of_mem _ hv), this.2⟩
              · simp only [List.map_cons, List.map_nil, List.mem_singleton] at h
                subst h
                exact ⟨hguard.2, hvis1⟩
            · intro n hn hni
              show n ∈ st.visited
              simp only [List.map_append, List.mem_append, not_or] at hni
              have h1 : n ∈ st1.visited := hpend n hn hni.1
              rcases List.mem_cons.mp h1 with rfl | h2
              · exact absurd (by simp : m.name ∈ List.map Prod.fst [(m.name, directInfo models m)])
                  hni.2
              · exact h2
          · -- InfoInv of the extended state
            intro e he
            rw [List.mem_append] at he
            rcases he with h | h
            · exact hinv2 e h
            · rw [List.mem_singleton] at h
              subst h
              refine ⟨m, hm, rfl, hguard.1, ?_, rfl⟩
              intro hoff
              exact hbad hoff
    · rw [if_neg hguard]
      refine ⟨StepOk.refl st, hinv, fun hcomp => ?_⟩
      by_cases hv : m.name ∈ st.visited
      · exact hv
      · exact absurd ⟨hcomp, hv⟩ hguard

/-- The fold over a member list, characterized at any sufficient fuel. -/
theorem compFold_char (models : List CModel) (fuel : Nat) :
    ∀ (ms : List CModel) (st : CompSt), (∀ x ∈ ms, x ∈ models) →
      compMeasure models st.visited < fuel → InfoInv models st →
      FoldProp models ms st (compFold models fuel ms st) := by
  intro ms
  induction ms with
  | nil =>
    intro st _ _ hinv
    rw [compFold_nil]
    exact ⟨StepOk.refl st, hinv, fun x hx => absurd hx (List.not_mem_nil x)⟩
  | cons mem rest ihl =>
    intro st hms hlt hinv
    rw [compFold_cons]
    have hmem := go_char models fuel mem st (hms mem (List.mem_cons_self mem rest)) hlt hinv
    cases hgo : mutateModelWithCompositeProps models fuel mem st with
    | error e =>
      rw [hgo] at hmem
      exact hmem
    | ok st1 =>
      rw [hgo] at hmem
      obtain ⟨hstep1, hinv1, hcov1⟩ := hmem
      have hlt1 : compMeasure models st1.visited < fuel :=
        Nat.lt_of_le_of_lt (compMeasure_mono models hstep1.1) hlt
      have hrest := ihl st1 (fun x hx => hms x (List.mem_cons_of_mem mem hx)) hlt1 hinv1
      show FoldProp models (mem :: rest) st (compFold models fuel rest st1)
      cases hfold : compFold models fuel rest st1 with
      | error e =>
        rw [hfold] at hrest
        exact hrest
      | ok st2 =>
        rw [hfold] at hrest
        obtain ⟨hstep2, hinv2, hcov2⟩ := hrest
        refine ⟨hstep1.trans hstep2, hinv2, ?_⟩
        intro x hx hcomp
        rcases List.mem_cons.mp hx with rfl | hx'
        · exact hstep2.1 (hcov1 hcomp)
        · exact hcov2 x hx' hcomp

/-- Characterization of the whole pass `ensureCompositeModels`. -/
theorem ensureComposite_char (models : List CModel) :
    FoldProp models models { visited := [], info := [] } (ensureCompositeModels models) := by
  rw [show ensureCompositeModels models
      = compFold models (models.length + 1) models { visited := [], info := [] } from rfl]
  refine compFold_char models (models.length + 1) models _ (fun x hx => hx) ?_ ?_
  · show compMeasure models [] < models.length + 1
    unfold compMeasure
    calc ((models.map CModel.name).filter _).length
        ≤ (models.map CModel.name).length := List.length_filter_le _ _
      _ = models.length := List.length_map _ _
      _ < models.length + 1 := Nat.lt_succ_self _
  · intro e he
    exact absurd he (List.not_mem_nil e)

/-- On success, the attached-info trace lists each processed model exactly
once: its names are pairwise distinct. -/
theorem ensureComposite_trace_nodup {models : List CModel} {st : CompSt}
    (h : ensureCompositeModels models = .ok st) : (st.info.map Prod.fst).Nodup := by
  have hc := ensureComposite_char models
  rw [h] at hc
  obtain ⟨⟨_, ⟨Δ, hΔ, hΔnd, _⟩, _⟩, _, _⟩ := hc
  simp only [List.nil_append] at hΔ
  rw [hΔ]
  exact hΔnd

theorem name_inj {models : List CModel} (hnd : (models.map CModel.name).Nodup)
    {a b : CModel} (ha : a ∈ models) (hb : b ∈ models) (hn : a.name = b.name) : a = b :=
  List.inj_on_of_nodup_map hnd ha hb hn

theorem lookup_eq_of_mem {l : List (String × CompositeInfo)}
    (hnd : (l.map Prod.fst).Nodup) {n : String} {v : CompositeInfo}
    (hmem : (n, v) ∈ l) : l.lookup n = some v := by
  induction l with
  | nil => cases hmem
  | cons e t ih =>
    obtain ⟨a, b⟩ := e
    rcases List.mem_cons.mp hmem with h | h
    · obtain ⟨rfl, rfl⟩ := Prod.mk.injEq .. ▸ h
      simp [List.lookup]
    · have hna : n ≠ a := by
        rintro rfl
        exact (List.nodup_cons.mp hnd).1 (List.mem_map.mpr ⟨(n, v), h, rfl⟩)
      have hbeq : (n == a) = false := beq_eq_false_iff_ne.mpr hna
      simp only [List.lookup, hbeq]
      exact ih (List.nodup_cons.mp hnd).2 h

/-- On success with unique model names, every composed model's attached info
is exactly its direct-member resolution. -/
theorem ensureComposite_ok_info {models : List CModel} {st : CompSt}
    (hnd : (models.map CModel.name).Nodup)
    (h : ensureCompositeModels models = .ok st) :
    ∀ m ∈ models, m.exportType ∈ COMPOSED_SCHEMA_TYPES →
      ¬ Offending m ∧ st.info.lookup m.name = some (directInfo models m) := by
  have hc := ensureComposite_char models
  rw [h] at hc
  obtain ⟨⟨_, ⟨Δ, hΔ, hΔnd, _⟩, hpend⟩, hinv, hcov⟩ := hc
  intro m hm hcomp
  have hvis : m.name ∈ st.visited := hcov m hm hcomp
  have hrec : m.name ∈ st.info.map Prod.fst := by
    by_contra hni
    exact absurd (hpend m.name hvis hni) (List.not_mem_nil _)
  obtain ⟨e, he, hee⟩ := List.mem_map.mp hrec
  obtain ⟨m', hm', hname, _, hoff, hval⟩ := hinv e he
  have hmm : m' = m := name_inj hnd hm' hm (by rw [hname, hee])
  subst hmm
  refine ⟨hoff, ?_⟩
  obtain ⟨e1, e2⟩ := e
  have he1 : e1 = m'.name := hee
  have hv2 : e2 = directInfo models m' := hval
  subst he1
  subst hv2
  exact lookup_eq_of_mem (ensureComposite_trace_nodup h) he

/-! ### OpenAPI schemas and the hoisting passes (source lines 649-799)

An OpenAPI schema node is either a reference (`{ $ref }`, carrying the full
reference string) or a schema object with the fields the hoister inspects.
`Option` distinguishes an absent field from a present-but-empty one (JS
truthiness: a present empty array or object is truthy).  The `not` keyword is
a reserved word in Lean and is embedded as `notSchema`; the
`x-tsapi-hoisted` vendor extension is the `hoisted` flag. -/

inductive Schema where
  | ref (r : String)
  | obj (type : Option String) (title : Option String)
        (properties : Option (List (String × Schema)))
        (items : Option Schema)
        (additionalProperties : Option (Sum Bool Schema))
        (allOf : Option (List Schema))
        (anyOf : Option (List Schema))
        (oneOf : Option (List Schema))
        (notSchema : Option Schema)
        (enum : Option (List String))
        (hoisted : Bool)

/-- `isRef` (source lines 82-83). -/
def isRef : Schema → Bool
  | .ref _ => true
  | .obj .. => false

/-! Structural size of a schema tree (used as fuel: every recursion of the
hoister and of the enrichment walks descends into strict sub-schemas). -/

mutual
def schemaSize : Schema → Nat
  | .ref _ => 1
  | .obj _ _ props items addProps allOf anyOf oneOf nots _ _ =>
    1 + propListSizeO props + schemaSizeO items + addPropsSizeO addProps +
      schemaListSizeO allOf + schemaListSizeO anyOf + schemaListSizeO oneOf +
      schemaSizeO nots

def schemaSizeO : Option Schema → Nat
  | none => 0
  | some s => 1 + schemaSize s

def addPropsSizeO : Option (Sum Bool Schema) → Nat
  | none => 0
  | some (.inl _) => 1
  | some (.inr s) => 1 + schemaSize s

def schemaListSizeO : Option (List Schema) → Nat
  | none => 0
  | some l => 1 + schemaListSize l

def schemaListSize : List Schema → Nat
  | [] => 0
  | s :: t => 1 + schemaSize s + schemaListSize t

def propListSizeO : Option (List (String × Schema)) → Nat
  | none => 0
  | some l => 1 + propListSize l

def propListSize : List (String × Schema) → Nat
  | [] => 0
  | kv :: t => 1 + schemaSize kv.2 + propListSize t
end

def Schema.typeF : Schema → Option String
  | .ref _ => none
  | .obj t _ _ _ _ _ _ _ _ _ _ => t

def Schema.titleF : Schema → Option String
  | .ref _ => none
  | .obj _ ti _ _ _ _ _ _ _ _ _ => ti

def Schema.propertiesF : Schema → Option (List (String × Schema))
  | .ref _ => none
  | .obj _ _ p _ _ _ _ _ _ _ _ => p

def Schema.enumF : Schema → Option (List String)
  | .ref _ => none
  | .obj _ _ _ _ _ _ _ _ _ e _ => e

/-- `isCompositeSchema` (source lines 661-662): `!!allOf || !!anyOf || !!oneOf`. -/
def isCompositeSchema : Schema → Bool
  | .ref _ => false
  | .obj _ _ _ _ _ al an o _ _ _ => al.isSome || an.isSome || o.isSome

/-- `hasSubSchemasToVisit` (source lines 664-665). -/
def hasSubSchemasToVisit (s : Schema) : Bool :=
  match s with
  | .ref _ => false
  | .obj type _ _ _ _ _ _ _ nots enum _ =>
    (!isRef s) &&
    ((type = some "object" || type = some "array") || isCompositeSchema s ||
      nots.isSome || (type = some "string" && enum.isSome))

/-- The hoisting filter (source line 695): an object with declared properties,
a composite, or a string enum becomes a hoisted named schema. -/
def needsName (s : Schema) : Bool :=
  match s with
  | .ref _ => false
  | .obj type _ props _ _ _ _ _ _ enum _ =>
    (type = some "object" && props.isSome) || isCompositeSchema s ||
      (type = some "string" && enum.isSome)

/-- A string enum gets the extra `Enum` name part (source line 696). -/
def isStringEnum (s : Schema) : Bool :=
  s.typeF = some "string" && s.enumF.isSome

/-- The hoisted name: name parts (plus `Enum` for string enums), each
`upperFirst`-ed and joined (source lines 696-697). -/
def mkHoistName (nameParts : List String) (s : Schema) : String :=
  ((nameParts ++ (if isStringEnum s then ["Enum"] else [])).map upperFirst).foldl
    (fun a b => a ++ b) ""

/-- Tag a hoisted clone with the `x-tsapi-hoisted` vendor extension
(source lines 701-704). -/
def setHoisted : Schema → Schema
  | .ref r => .ref r
  | .obj t ti p it ap al an o ns e _ => .obj t ti p it ap al an o ns e true

/-- JS truthiness of `title` (an empty title does not name the schema). -/
def truthyTitle (s : Schema) : Option String :=
  match s.titleF with
  | some t => if t = "" then none else some t
  | none => none

/-- Name parts assigned to the inline branches of one composite group
(`filterInlineCompositeSchemas`, source lines 667-677): a titled branch is
named from its title; an untitled one from the accumulated parts plus the
group stem, with a numeric suffix from the second anonymous branch on.
Returns each branch paired with its assigned parts when it is visited. -/
def branchAssignments (nameParts : List String) (stem : String) :
    List Schema → Nat → List (Schema × Option (List String))
  | [], _ => []
  | b :: rest, idx =>
    if hasSubSchemasToVisit b then
      let cnp :=
        match truthyTitle b with
        | some t => [upperFirst (camelCase t)]
        | none => nameParts ++ [stem ++ (if idx = 0 then "" else toString idx)]
      (b, some cnp) :: branchAssignments nameParts stem rest (idx + 1)
    else
      (b, none) :: branchAssignments nameParts stem rest idx

/-- The type of the recursive hoisting call threaded through the per-position
helpers below. -/
abbrev HoistRec := List String → Schema → Schema × List (String × Schema)

/-- Per-child hoisting step (the clone-and-replace of source lines 694-711):
recurse depth-first, then replace by a `$ref` and emit the tagged clone when
the (rewritten) child needs a generated name. -/
def processChild (rec : HoistRec) (cnp : List String) (c : Schema) :
    Schema × Option (String × Schema) × List (String × Schema) :=
  let r := rec cnp c
  if needsName r.1 then
    let name := mkHoistName cnp r.1
    (.ref ("#/components/schemas/" ++ name), some (name, setHoisted r.1), r.2)
  else (r.1, none, r.2)

/-- Hoisting step for a single optional sub-schema position (`not`, `items`). -/
def processOpt (rec : HoistRec) (cnp : List String) :
    Option Schema → Option Schema × List (String × Schema) × List (String × Schema)
  | some c =>
    if hasSubSchemasToVisit c then
      let r := processChild rec cnp c
      (some r.1, r.2.1.toList, r.2.2)
    else (some c, [], [])
  | none => (none, [], [])

/-- Hoisting step for one composite group (`anyOf`/`allOf`/`oneOf`). -/
def processGroup (rec : HoistRec) (nameParts : List String) (stem : String) :
    Option (List Schema) →
      Option (List Schema) × List (String × Schema) × List (String × Schema)
  | none => (none, [], [])
  | some l =>
    let results := (branchAssignments nameParts stem l 0).map (fun bc =>
      match bc.2 with
      | some cnp =>
        let r := processChild rec cnp bc.1
        (r.1, r.2.1.toList, r.2.2)
      | none => (bc.1, [], []))
    (some (results.map (fun r => r.1)),
     results.flatMap (fun r => r.2.1),
     results.flatMap (fun r => r.2.2))

/-- Hoisting step for the object properties. -/
def processProps (rec : HoistRec) (nameParts : List String) :
    Option (List (String × Schema)) →
      Option (List (String × Schema)) × List (String × Schema) × List (String × Schema)
  | none => (none, [], [])
  | some l =>
    let results := l.map (fun kv =>
      if hasSubSchemasToVisit kv.2 then
        let r := processChild rec (nameParts ++ [kv.1]) kv.2
        ((kv.1, r.1), r.2.1.toList, r.2.2)
      else ((kv.1, kv.2), [], []))
    (some (results.map (fun r => r.1)),
     results.flatMap (fun r => r.2.1),
     results.flatMap (fun r => r.2.2))

/-- Hoisting step for `additionalProperties` (skipped when boolean). -/
def processAddProps (rec : HoistRec) (cnp : List String) :
    Option (Sum Bool Schema) →
      Option (Sum Bool Schema) × List (String × Schema) × List (String × Schema)
  | some (.inr c) =>
    if hasSubSchemasToVisit c then
      let r := processChild rec cnp c
      (some (.inr r.1), r.2.1.toList, r.2.2)
    else (some (.inr c), [], [])
  | some (.inl b) => (some (.inl b), [], [])
  | none => (none, [], [])

/-- `hoistInlineObjectSubSchemas` (source lines 679-714), fuel-indexed (the
recursion is along strict sub-schemas, so `schemaSize` bounds the depth and
the fuel-exhaustion branch is unreachable from `hoistSpec`).
Returns the rewritten schema and the hoisted `(name, schema)` pairs: the
current level's refs first, then the recursive ones, each in position order
`not`, `anyOf`, `allOf`, `oneOf`, `items`, `properties`,
`additionalProperties`. -/
def hoistInline : Nat → List String → Schema → Schema × List (String × Schema)
  | 0, _, s => (s, [])
  | _ + 1, _, .ref r => (.ref r, [])
  | fuel + 1, nameParts, .obj type title props items addProps allOf anyOf oneOf nots enum hstd =>
    let notRes := processOpt (hoistInline fuel) (nameParts ++ ["Not"]) nots
    let anyRes := processGroup (hoistInline fuel) nameParts "AnyOf" anyOf
    let allRes := processGroup (hoistInline fuel) nameParts "AllOf" allOf
    let oneRes := processGroup (hoistInline fuel) nameParts "OneOf" oneOf
    let itemsRes := processOpt (hoistInline fuel) (nameParts ++ ["Inner"]) items
    let propsRes := processProps (hoistInline fuel) nameParts props
    let addRes := processAddProps (hoistInline fuel) (nameParts ++ ["Value"]) addProps
    let refs := notRes.2.1 ++ anyRes.2.1 ++ allRes.2.1 ++ oneRes.2.1 ++
      itemsRes.2.1 ++ propsRes.2.1 ++ addRes.2.1
    let recursiveRefs := notRes.2.2 ++ anyRes.2.2 ++ allRes.2.2 ++ oneRes.2.2 ++
      itemsRes.2.2 ++ propsRes.2.2 ++ addRes.2.2
    (.obj type title propsRes.1 itemsRes.1 addRes.1 allRes.1 anyRes.1 oneRes.1 notRes.1 enum hstd,
     refs ++ recursiveRefs)

/-! ### The document: paths, operations, bodies, `components/schemas`

Response objects and request bodies are embedded inline (the source resolves
`$ref` responses in place; referenced response objects are not needed by the
claims).  JS objects become association lists with unique keys; `alistSet`
reproduces JS assignment (update in place, else append). -/

def alistGet {α : Type} (l : List (String × α)) (k : String) : Option α :=
  (l.find? (fun e => e.1 = k)).map (fun e => e.2)

def alistSet {α : Type} : List (String × α) → String → α → List (String × α)
  | [], k, v => [(k, v)]
  | (k', v') :: t, k, v => if k' = k then (k', v) :: t else (k', v') :: alistSet t k v

structure MediaTypeObject where
  schema : Option Schema

/-- A response object or request body: its `content` map. -/
structure BodyObject where
  content : Option (List (String × MediaTypeObject))

structure Operation where
  operationId : Option String
  responses : List (String × BodyObject)
  requestBody : Option BodyObject

structure PathItem where
  operations : List (String × Operation)

structure Spec where
  paths : List (String × PathItem)
  schemas : List (String × Schema)

/-- The JSON schema of a body, if declared
(`body?.content?.['application/json']?.schema`). -/
def jsonSchemaOf (b : BodyObject) : Option Schema :=
  b.content.bind (fun c => (alistGet c "application/json").bind (fun mt => mt.schema))

/-- All JSON request/response body schemas of all operations. -/
def opJsonBodies (spec : Spec) : List Schema :=
  spec.paths.flatMap (fun pe =>
    pe.2.operations.flatMap (fun oe =>
      oe.2.responses.filterMap (fun re => jsonSchemaOf re.2) ++
      (match oe.2.requestBody with
       | some rb => (jsonSchemaOf rb).toList
       | none => [])))

/-! #### Operation body hoisting (`buildData`, source lines 739-768) -/

/-- Whether a body's JSON schema is an inline `object`/`array` (the hoisting
condition of source lines 747 and 759). -/
def bodyNeedsHoist (b : BodyObject) : Option Schema :=
  match jsonSchemaOf b with
  | some s =>
    if isRef s = false ∧ (s.typeF = some "object" ∨ s.typeF = some "array") then some s
    else none
  | none => none

/-- Replace a body's inline JSON schema by a `$ref` to `name` when it is an
inline object/array (pure part of the rewrite). -/
def rewriteBody (name : String) (b : BodyObject) : BodyObject :=
  match bodyNeedsHoist b with
  | some _ =>
    { content := b.content.map (fun c =>
        alistSet c "application/json" ⟨some (.ref ("#/components/schemas/" ++ name))⟩) }
  | none => b

/-- The synthesized base name of an operation:
`PascalCase(operationId ?? path-method)`. -/
def opBaseName (path method : String) (op : Operation) : String :=
  pascalCase (op.operationId.getD (path ++ "-" ++ method))

/-- The rewritten operation after body hoisting. -/
def rewriteOp (path method : String) (op : Operation) : Operation :=
  { op with
    responses := op.responses.map (fun re =>
      (re.1, rewriteBody (opBaseName path method op ++ re.1 ++ "Response") re.2))
    requestBody := op.requestBody.map (fun rb =>
      rewriteBody (opBaseName path method op ++ "RequestContent") rb) }

/-- The `(name, schema)` registrations of one operation, in processing order
(responses first, then the request body). -/
def opRegs (path method : String) (op : Operation) : List (String × Schema) :=
  op.responses.filterMap (fun re =>
    (bodyNeedsHoist re.2).map (fun s => (opBaseName path method op ++ re.1 ++ "Response", s))) ++
  (match op.requestBody with
   | some rb => ((bodyNeedsHoist rb).map
       (fun s => (opBaseName path method op ++ "RequestContent", s))).toList
   | none => [])

/-- All body-hoist registrations of the document, in processing order. -/
def bodyRegs (spec : Spec) : List (String × Schema) :=
  spec.paths.flatMap (fun pe =>
    pe.2.operations.flatMap (fun oe => opRegs pe.1 oe.1 oe.2))

/-- Operation body hoisting: inline `object`/`array` JSON bodies are
registered under `components/schemas` and replaced by `$ref`s
(source lines 739-768). -/
def hoistOperationBodies (spec : Spec) : Spec :=
  { paths := spec.paths.map (fun pe =>
      (pe.1, ⟨pe.2.operations.map (fun oe => (oe.1, rewriteOp pe.1 oe.1 oe.2))⟩))
    schemas := (bodyRegs spec).foldl (fun acc r => alistSet acc r.1 r.2) spec.schemas }

/-! #### General inline hoisting over `components/schemas`
(`buildData`, source lines 770-779) -/

/-- One entry's hoisting step: rewrite the entry and register its hoisted
sub-schemas. -/
def hoistEntryStep (acc : List (String × Schema)) (e : String × Schema) :
    List (String × Schema) :=
  match e.2 with
  | .ref _ => acc
  | s =>
    let r := hoistInline (schemaSize s) [e.1] s
    (r.2).foldl (fun a p => alistSet a p.1 p.2) (alistSet acc e.1 r.1)

/-- The general hoisting pass: every (snapshot) entry of `components/schemas`
is depth-first hoisted; new entries are registered as they are produced. -/
def hoistComponentSchemas (spec : Spec) : Spec :=
  { spec with schemas := spec.schemas.foldl hoistEntryStep spec.schemas }

/-- The two hoisting passes in order (operation bodies, then the general
inline hoisting). -/
def hoistSpec (spec : Spec) : Spec :=
  hoistComponentSchemas (hoistOperationBodies spec)

/-! #### The hoisting-closure invariant (claim C1) -/

/-- `c` is an immediate sub-schema of `s` (at any structural position). -/
inductive ChildAt : Schema → Schema → Prop
  | ofNot {c : Schema} {t ti P I A AL AN O en h} :
      ChildAt c (.obj t ti P I A AL AN O (some c) en h)
  | ofItems {c : Schema} {t ti P A AL AN O N en h} :
      ChildAt c (.obj t ti P (some c) A AL AN O N en h)
  | ofAddProps {c : Schema} {t ti P I AL AN O N en h} :
      ChildAt c (.obj t ti P I (some (.inr c)) AL AN O N en h)
  | ofProp {c : Schema} {k : String} {l t ti I A AL AN O N en h} :
      (k, c) ∈ l → ChildAt c (.obj t ti (some l) I A AL AN O N en h)
  | ofAllOf {c : Schema} {l t ti P I A AN O N en h} :
      c ∈ l → ChildAt c (.obj t ti P I A (some l) AN O N en h)
  | ofAnyOf {c : Schema} {l t ti P I A AL O N en h} :
      c ∈ l → ChildAt c (.obj t ti P I A AL (some l) O N en h)
  | ofOneOf {c : Schema} {l t ti P I A AL AN N en h} :
      c ∈ l → ChildAt c (.obj t ti P I A AL AN (some l) N en h)

/-- Descent from `s`: an immediate child, or deeper through a sub-schema the
hoister visits (`hasSubSchemasToVisit`). -/
inductive VisitDesc : Schema → Schema → Prop
  | base {c s : Schema} : ChildAt c s → VisitDesc c s
  | step {c m s : Schema} :
      ChildAt c m → hasSubSchemasToVisit m = true → VisitDesc m s → VisitDesc c s

/-- Descent from `s` through arbitrary nesting (the claim's "at any depth"). -/
def DeepDesc : Schema → Schema → Prop := Relation.TransGen ChildAt

/-- The closure invariant established by the hoister: every immediate inline
sub-schema needs no generated name, and the visited ones satisfy the
invariant recursively. -/
inductive ClosedV : Schema → Prop
  | intro {s : Schema} :
      (∀ c, ChildAt c s → needsName c = false) →
      (∀ c, ChildAt c s → hasSubSchemasToVisit c = true → ClosedV c) →
      ClosedV s

theorem ClosedV.child {s : Schema} (h : ClosedV s) {c : Schema} (hc : ChildAt c s) :
    needsName c = false ∧ (hasSubSchemasToVisit c = true → ClosedV c) := by
  cases h with
  | intro h1 h2 => exact ⟨h1 c hc, h2 c hc⟩

theorem closedV_ref (r : String) : ClosedV (.ref r) :=
  ClosedV.intro (fun _ hc => by cases hc) (fun _ hc => by cases hc)

theorem schemaSize_pos (s : Schema) : 1 ≤ schemaSize s := by
  cases s <;> simp only [schemaSize] <;> omega

theorem mem_schemaListSize {c : Schema} : ∀ {l : List Schema}, c ∈ l →
    schemaSize c ≤ schemaListSize l := by
  intro l h
  induction l with
  | nil => cases h
  | cons a t ih =>
    simp only [schemaListSize]
    rcases List.mem_cons.mp h with rfl | h'
    · omega
    · have := ih h'
      omega

theorem mem_propListSize {k : String} {c : Schema} : ∀ {l : List (String × Schema)},
    (k, c) ∈ l → schemaSize c ≤ propListSize l := by
  intro l h
  induction l with
  | nil => cases h
  | cons a t ih =>
    simp only [propListSize]
    rcases List.mem_cons.mp h with h0 | h'
    · have : c = a.2 := by rw [← h0]
      rw [this]
      omega
    · have := ih h'
      omega

/-- A schema needing a generated name is one the hoister visits. -/
theorem needsName_visitable {s : Schema} (h : needsName s = true) :
    hasSubSchemasToVisit s = true := by
  cases s with
  | ref r => simp [needsName] at h
  | obj t ti P I A AL AN O N en hh =>
    simp only [needsName, Bool.or_eq_true, Bool.and_eq_true] at h
    simp only [hasSubSchemasToVisit, isRef, Bool.not_false, Bool.true_and, Bool.or_eq_true,
      Bool.and_eq_true]
    rcases h with (⟨h1, _⟩ | h2) | ⟨h3, h4⟩
    · exact Or.inl (Or.inl (Or.inl (Or.inl h1)))
    · exact Or.inl (Or.inl (Or.inr h2))
    · exact Or.inr ⟨h3, h4⟩

/-- Through a `ClosedV` schema, no descendant along visited positions needs a
generated name. -/
theorem closedV_desc {s : Schema} (hs : ClosedV s) :
    ∀ t, VisitDesc t s → needsName t = false := by
  have main : ∀ t s, VisitDesc t s → ClosedV s →
      needsName t = false ∧ (hasSubSchemasToVisit t = true → ClosedV t) := by
    intro t s hdesc
    induction hdesc with
    | base hc => intro hcl; exact hcl.child hc
    | step hc hv _ ih =>
      intro hcl
      have hm := (ih hcl).2 hv
      exact hm.child hc
  intro t hdesc
  exact (main t s hdesc hs).1

/-- `setHoisted` only flips the vendor-extension flag: children are
unchanged. -/
theorem childAt_setHoisted {c s : Schema} (h : ChildAt c (setHoisted s)) : ChildAt c s := by
  cases s with
  | ref r => cases h
  | obj t ti P I A AL AN O N en hh =>
    cases h with
    | ofNot => exact ChildAt.ofNot
    | ofItems => exact ChildAt.ofItems
    | ofAddProps => exact ChildAt.ofAddProps
    | ofProp hmem => exact ChildAt.ofProp hmem
    | ofAllOf hmem => exact ChildAt.ofAllOf hmem
    | ofAnyOf hmem => exact ChildAt.ofAnyOf hmem
    | ofOneOf hmem => exact ChildAt.ofOneOf hmem

theorem closedV_setHoisted {s : Schema} (h : ClosedV s) : ClosedV (setHoisted s) :=
  ClosedV.intro (fun c hc => (h.child (childAt_setHoisted hc)).1)
    (fun c hc => (h.child (childAt_setHoisted hc)).2)

/-- The hypothesis on the recursive hoisting call the per-position lemmas
assume. -/
def RecOk (rec : HoistRec) (bound : Nat) : Prop :=
  ∀ cnp c, schemaSize c ≤ bound →
    ClosedV (rec cnp c).1 ∧ ∀ p ∈ (rec cnp c).2, ClosedV p.2

/-- The obligations `ClosedV.intro` requires of a rewritten child. -/
def ChildOk (c : Schema) : Prop :=
  needsName c = false ∧ (hasSubSchemasToVisit c = true → ClosedV c)

theorem bool_eq_false {b : Bool} (h : ¬ b = true) : b = false := by
  cases b
  · rfl
  · exact absurd rfl h

theorem childOk_untouched {c : Schema} (h : hasSubSchemasToVisit c = false) : ChildOk c := by
  refine ⟨?_, fun hv => absurd hv (by rw [h]; simp)⟩
  by_cases hn : needsName c = true
  · rw [needsName_visitable hn] at h
    cases h
  · exact bool_eq_false hn

theorem processChild_closed {rec : HoistRec} {bound : Nat} (hrec : RecOk rec bound)
    (cnp : List String) {c : Schema} (hsz : schemaSize c ≤ bound) :
    ChildOk (processChild rec cnp c).1 ∧
    (∀ p, (processChild rec cnp c).2.1 = some p → ClosedV p.2) ∧
    (∀ p ∈ (processChild rec cnp c).2.2, ClosedV p.2) := by
  obtain ⟨hcl, hrefs⟩ := hrec cnp c hsz
  unfold processChild
  by_cases hn : needsName (rec cnp c).1 = true
  · rw [if_pos hn]
    refine ⟨⟨rfl, fun _ => closedV_ref _⟩, ?_, hrefs⟩
    intro p hp
    obtain rfl : p = (mkHoistName cnp (rec cnp c).1, setHoisted (rec cnp c).1) :=
      (Option.some_injective _ hp).symm
    exact closedV_setHoisted hcl
  · rw [if_neg hn]
    refine ⟨⟨bool_eq_false hn, fun _ => hcl⟩, ?_, hrefs⟩
    intro p hp
    cases hp

theorem processOpt_closed {rec : HoistRec} {bound : Nat} (hrec : RecOk rec bound)
    (cnp : List String) (o : Option Schema)
    (hsz : ∀ c, o = some c → schemaSize c ≤ bound) :
    (∀ c, (processOpt rec cnp o).1 = some c → ChildOk c) ∧
    (∀ p ∈ (processOpt rec cnp o).2.1, ClosedV p.2) ∧
    (∀ p ∈ (processOpt rec cnp o).2.2, ClosedV p.2) := by
  match o with
  | none =>
    refine ⟨?_, ?_, ?_⟩
    · intro c hc
      have hc' : (none : Option Schema) = some c := hc
      cases hc'
    · intro p hp
      have hp' : p ∈ ([] : List (String × Schema)) := hp
      cases hp'
    · intro p hp
      have hp' : p ∈ ([] : List (String × Schema)) := hp
      cases hp'
  | some c0 =>
    have hsz0 := hsz c0 rfl
    have heqIf : processOpt rec cnp (some c0)
        = (if hasSubSchemasToVisit c0 = true then
            (some (processChild rec cnp c0).1,
             (processChild rec cnp c0).2.1.toList, (processChild rec cnp c0).2.2)
          else (some c0, [], [])) := rfl
    by_cases hv : hasSubSchemasToVisit c0 = true
    · obtain ⟨hco, hthis, hrec2⟩ := processChild_closed hrec cnp hsz0
      have heq : processOpt rec cnp (some c0)
          = (some (processChild rec cnp c0).1,
             (processChild rec cnp c0).2.1.toList, (processChild rec cnp c0).2.2) := by
        rw [heqIf, if_pos hv]
      rw [heq]
      refine ⟨?_, ?_, hrec2⟩
      · intro c hc
        obtain rfl := Option.some_injective _ hc
        exact hco
      · intro p hp
        rw [Option.mem_toList] at hp
        exact hthis p hp
    · have heq : processOpt rec cnp (some c0) = (some c0, [], []) := by
        rw [heqIf, if_neg hv]
      rw [heq]
      refine ⟨?_, ?_, ?_⟩
      · intro c hc
        obtain rfl : c0 = c := Option.some_injective _ hc
        exact childOk_untouched (bool_eq_false hv)
      · intro p hp
        cases hp
      · intro p hp
        cases hp

theorem branchAssignments_mem {nameParts : List String} {stem : String} :
    ∀ {l : List Schema} {idx : Nat} {b : Schema} {a : Option (List String)},
      (b, a) ∈ branchAssignments nameParts stem l idx →
      b ∈ l ∧ (a = none → hasSubSchemasToVisit b = false) := by
  intro l
  induction l with
  | nil => intro idx b a h; cases h
  | cons x t ih =>
    intro idx b a h
    rw [branchAssignments] at h
    by_cases hv : hasSubSchemasToVisit x = true
    · rw [if_pos hv] at h
      rcases List.mem_cons.mp h with h0 | h'
      · obtain ⟨rfl, rfl⟩ := Prod.mk.injEq .. ▸ h0
        exact ⟨List.mem_cons_self _ _, fun hn => by cases hn⟩
      · obtain ⟨hb, ha⟩ := ih h'
        exact ⟨List.mem_cons_of_mem _ hb, ha⟩
    · rw [if_neg hv] at h
      rcases List.mem_cons.mp h with h0 | h'
      · obtain ⟨rfl, rfl⟩ := Prod.mk.injEq .. ▸ h0
        exact ⟨List.mem_cons_self _ _, fun _ => Bool.not_eq_true _ ▸ hv⟩
      · obtain ⟨hb, ha⟩ := ih h'
        exact ⟨List.mem_cons_of_mem _ hb, ha⟩

theorem processGroup_closed {rec : HoistRec} {bound : Nat} (hrec : RecOk rec bound)
    (nameParts : List String) (stem : String) (o : Option (List Schema))
    (hsz : ∀ l, o = some l → ∀ b ∈ l, schemaSize b ≤ bound) :
    (∀ l', (processGroup rec nameParts stem o).1 = some l' → ∀ c ∈ l', ChildOk c) ∧
    (∀ p ∈ (processGroup rec nameParts stem o).2.1, ClosedV p.2) ∧
    (∀ p ∈ (processGroup rec nameParts stem o).2.2, ClosedV p.2) := by
  match o with
  | none =>
    refine ⟨?_, ?_, ?_⟩
    · intro l' hl
      have hl' : (none : Option (List Schema)) = some l' := hl
      cases hl'
    · intro p hp
      have hp' : p ∈ ([] : List (String × Schema)) := hp
      cases hp'
    · intro p hp
      have hp' : p ∈ ([] : List (String × Schema)) := hp
      cases hp'
  | some l =>
    have hsz0 := hsz l rfl
    have key : ∀ bc ∈ (branchAssignments nameParts stem l 0).map (fun bc =>
        match bc.2 with
        | some cnp =>
          let r := processChild rec cnp bc.1
          (r.1, r.2.1.toList, r.2.2)
        | none => (bc.1, ([] : List (String × Schema)), ([] : List (String × Schema)))),
        ChildOk bc.1 ∧ (∀ p ∈ bc.2.1, ClosedV p.2) ∧ (∀ p ∈ bc.2.2, ClosedV p.2) := by
      intro bc hbc
      obtain ⟨⟨b, a⟩, hmem, hval⟩ := List.mem_map.mp hbc
      obtain ⟨hb, hnone⟩ := branchAssignments_mem hmem
      have hszb := hsz0 b hb
      match a with
      | some cnp =>
        obtain ⟨hco, hthis, hrec2⟩ := processChild_closed hrec cnp hszb
        have hval' : ((processChild rec cnp b).1, (processChild rec cnp b).2.1.toList,
            (processChild rec cnp b).2.2) = bc := hval
        rw [← hval']
        refine ⟨hco, ?_, hrec2⟩
        intro p hp
        rw [Option.mem_toList] at hp
        exact hthis p hp
      | none =>
        have hval' : (b, ([] : List (String × Schema)), ([] : List (String × Schema))) = bc :=
          hval
        rw [← hval']
        refine ⟨childOk_untouched (hnone rfl), ?_, ?_⟩
        · intro p hp
          cases hp
        · intro p hp
          cases hp
    have heq : processGroup rec nameParts stem (some l)
        = (some (((branchAssignments nameParts stem l 0).map (fun bc =>
            match bc.2 with
            | some cnp =>
              let r := processChild rec cnp bc.1
              (r.1, r.2.1.toList, r.2.2)
            | none => (bc.1, [], []))).map (fun r => r.1)),
           ((branchAssignments nameParts stem l 0).map (fun bc =>
            match bc.2 with
            | some cnp =>
              let r := processChild rec cnp bc.1
              (r.1, r.2.1.toList, r.2.2)
            | none => (bc.1, [], []))).flatMap (fun r => r.2.1),
           ((branchAssignments nameParts stem l 0).map (fun bc =>
            match bc.2 with
            | some cnp =>
              let r := processChild rec cnp bc.1
              (r.1, r.2.1.toList, r.2.2)
            | none => (bc.1, [], []))).flatMap (fun r => r.2.2)) := rfl
    rw [heq]
    refine ⟨?_, ?_, ?_⟩
    · intro l' hl c hc
      obtain rfl := Option.some_injective _ hl
      obtain ⟨bc, hbc, hval⟩ := List.mem_map.mp hc
      exact hval ▸ (key bc hbc).1
    · intro p hp
      obtain ⟨bc, hbc, hval⟩ := List.mem_flatMap.mp hp
      exact (key bc hbc).2.1 p hval
    · intro p hp
      obtain ⟨bc, hbc, hval⟩ := List.mem_flatMap.mp hp
      exact (key bc hbc).2.2 p hval

theorem processProps_closed {rec : HoistRec} {bound : Nat} (hrec : RecOk rec bound)
    (nameParts : List String) (o : Option (List (String × Schema)))
    (hsz : ∀ l, o = some l → ∀ kv ∈ l, schemaSize (kv : String × Schema).2 ≤ bound) :
    (∀ l', (processProps rec nameParts o).1 = some l' →
      ∀ kv ∈ l', ChildOk (kv : String × Schema).2) ∧
    (∀ p ∈ (processProps rec nameParts o).2.1, ClosedV p.2) ∧
    (∀ p ∈ (processProps rec nameParts o).2.2, ClosedV p.2) := by
  match o with
  | none =>
    refine ⟨?_, ?_, ?_⟩
    · intro l' hl
      have hl' : (none : Option (List (String × Schema))) = some l' := hl
      cases hl'
    · intro p hp
      have hp' : p ∈ ([] : List (String × Schema)) := hp
      cases hp'
    · intro p hp
      have hp' : p ∈ ([] : List (String × Schema)) := hp
      cases hp'
  | some l =>
    have hsz0 := hsz l rfl
    have key : ∀ bc ∈ l.map (fun kv =>
        if hasSubSchemasToVisit kv.2 then
          let r := processChild rec (nameParts ++ [kv.1]) kv.2
          ((kv.1, r.1), r.2.1.toList, r.2.2)
        else ((kv.1, kv.2), ([] : List (String × Schema)), ([] : List (String × Schema)))),
        ChildOk bc.1.2 ∧ (∀ p ∈ bc.2.1, ClosedV p.2) ∧ (∀ p ∈ bc.2.2, ClosedV p.2) := by
      intro bc hbc
      obtain ⟨⟨k, c⟩, hmem, hval⟩ := List.mem_map.mp hbc
      have hszc := hsz0 (k, c) hmem
      by_cases hv : hasSubSchemasToVisit c = true
      · obtain ⟨hco, hthis, hrec2⟩ := processChild_closed hrec (nameParts ++ [k]) hszc
        have hval' : ((k, (processChild rec (nameParts ++ [k]) c).1),
            (processChild rec (nameParts ++ [k]) c).2.1.toList,
            (processChild rec (nameParts ++ [k]) c).2.2) = bc := by
          rw [← hval]
          simp only [if_pos hv]
        rw [← hval']
        refine ⟨hco, ?_, hrec2⟩
        intro p hp
        rw [Option.mem_toList] at hp
        exact hthis p hp
      · have hval' : ((k, c), ([] : List (String × Schema)), ([] : List (String × Schema)))
            = bc := by
          rw [← hval]
          simp only [if_neg hv]
        rw [← hval']
        refine ⟨childOk_untouched (bool_eq_false hv), ?_, ?_⟩
        · intro p hp
          cases hp
        · intro p hp
          cases hp
    have heq : processProps rec nameParts (some l)
        = (some ((l.map (fun kv =>
            if hasSubSchemasToVisit kv.2 then
              let r := processChild rec (nameParts ++ [kv.1]) kv.2
              ((kv.1, r.1), r.2.1.toList, r.2.2)
            else ((kv.1, kv.2), [], []))).map (fun r => r.1)),
           (l.map (fun kv =>
            if hasSubSchemasToVisit kv.2 then
              let r := processChild rec (nameParts ++ [kv.1]) kv.2
              ((kv.1, r.1), r.2.1.toList, r.2.2)
            else ((kv.1, kv.2), [], []))).flatMap (fun r => r.2.1),
           (l.map (fun kv =>
            if hasSubSchemasToVisit kv.2 then
              let r := processChild rec (nameParts ++ [kv.1]) kv.2
              ((kv.1, r.1), r.2.1.toList, r.2.2)
            else ((kv.1, kv.2), [], []))).flatMap (fun r => r.2.2)) := rfl
    rw [heq]
    refine ⟨?_, ?_, ?_⟩
    · intro l' hl kv hkv
      obtain rfl := Option.some_injective _ hl
      obtain ⟨bc, hbc, hval⟩ := List.mem_map.mp hkv
      exact hval ▸ (key bc hbc).1
    · intro p hp
      obtain ⟨bc, hbc, hval⟩ := List.mem_flatMap.mp hp
      exact (key bc hbc).2.1 p hval
    · intro p hp
      obtain ⟨bc, hbc, hval⟩ := List.mem_flatMap.mp hp
      exact (key bc hbc).2.2 p hval

theorem processAddProps_closed {rec : HoistRec} {bound : Nat} (hrec : RecOk rec bound)
    (cnp : List String) (o : Option (Sum Bool Schema))
    (hsz : ∀ c, o = some (.inr c) → schemaSize c ≤ bound) :
    (∀ c, (processAddProps rec cnp o).1 = some (.inr c) → ChildOk c) ∧
    (∀ p ∈ (processAddProps rec cnp o).2.1, ClosedV p.2) ∧
    (∀ p ∈ (processAddProps rec cnp o).2.2, ClosedV p.2) := by
  match o with
  | none =>
    refine ⟨?_, ?_, ?_⟩
    · intro c hc
      have hc' : (none : Option (Sum Bool Schema)) = some (.inr c) := hc
      cases hc'
    · intro p hp
      have hp' : p ∈ ([] : List (String × Schema)) := hp
      cases hp'
    · intro p hp
      have hp' : p ∈ ([] : List (String × Schema)) := hp
      cases hp'
  | some (.inl b) =>
    refine ⟨?_, ?_, ?_⟩
    · intro c hc
      have hc' : (some (Sum.inl b) : Option (Sum Bool Schema)) = some (.inr c) := hc
      cases Option.some_injective _ hc'
    · intro p hp
      have hp' : p ∈ ([] : List (String × Schema)) := hp
      cases hp'
    · intro p hp
      have hp' : p ∈ ([] : List (String × Schema)) := hp
      cases hp'
  | some (.inr c0) =>
    have hsz0 := hsz c0 rfl
    have heqIf : processAddProps rec cnp (some (.inr c0))
        = (if hasSubSchemasToVisit c0 = true then
            (some (.inr (processChild rec cnp c0).1),
             (processChild rec cnp c0).2.1.toList, (processChild rec cnp c0).2.2)
          else (some (.inr c0), [], [])) := rfl
    by_cases hv : hasSubSchemasToVisit c0 = true
    · obtain ⟨hco, hthis, hrec2⟩ := processChild_closed hrec cnp hsz0
      have heq : processAddProps rec cnp (some (.inr c0))
          = (some (.inr (processChild rec cnp c0).1),
             (processChild rec cnp c0).2.1.toList, (processChild rec cnp c0).2.2) := by
        rw [heqIf, if_pos hv]
      rw [heq]
      refine ⟨?_, ?_, hrec2⟩
      · intro c hc
        have : Sum.inr (processChild rec cnp c0).1 = Sum.inr c := Option.some_injective _ hc
        cases this
        exact hco
      · intro p hp
        rw [Option.mem_toList] at hp
        exact hthis p hp
    · have heq : processAddProps rec cnp (some (.inr c0)) = (some (.inr c0), [], []) := by
        rw [heqIf, if_neg hv]
      rw [heq]
      refine ⟨?_, ?_, ?_⟩
      · intro c hc
        have : Sum.inr c0 = Sum.inr c := Option.some_injective _ hc
        cases this
        exact childOk_untouched (bool_eq_false hv)
      · intro p hp
        cases hp
      · intro p hp
        cases hp

/-- The hoisting recursion establishes the closure invariant: with enough fuel
(`schemaSize` suffices), the rewritten schema and every hoisted clone satisfy
`ClosedV`. -/
theorem hoistInline_closed : ∀ fuel, RecOk (hoistInline fuel) fuel := by
  intro fuel
  induction fuel with
  | zero =>
    intro cnp c hsz
    have := schemaSize_pos c
    omega
  | succ fuel ih =>
    intro cnp c hsz
    cases c with
    | ref r =>
      refine ⟨closedV_ref r, ?_⟩
      intro p hp
      have hp' : p ∈ ([] : List (String × Schema)) := hp
      cases hp'
    | obj t ti P I A AL AN O N en hh =>
      have hszP : ∀ l, P = some l → ∀ kv ∈ l, schemaSize (kv : String × Schema).2 ≤ fuel := by
        intro l hl kv hkv
        have hs' := hsz
        rw [hl] at hs'
        simp only [schemaSize, propListSizeO] at hs'
        have hm := mem_propListSize (show (kv.1, kv.2) ∈ l from hkv)
        omega
      have hszI : ∀ c0, I = some c0 → schemaSize c0 ≤ fuel := by
        intro c0 hc0
        have hs' := hsz
        rw [hc0] at hs'
        simp only [schemaSize, schemaSizeO] at hs'
        omega
      have hszA : ∀ c0, A = some (.inr c0) → schemaSize c0 ≤ fuel := by
        intro c0 hc0
        have hs' := hsz
        rw [hc0] at hs'
        simp only [schemaSize, addPropsSizeO] at hs'
        omega
      have hszAL : ∀ l, AL = some l → ∀ b ∈ l, schemaSize b ≤ fuel := by
        intro l hl b hb
        have hs' := hsz
        rw [hl] at hs'
        simp only [schemaSize, schemaListSizeO] at hs'
        have hm := mem_schemaListSize hb
        omega
      have hszAN : ∀ l, AN = some l → ∀ b ∈ l, schemaSize b ≤ fuel := by
        intro l hl b hb
        have hs' := hsz
        rw [hl] at hs'
        simp only [schemaSize, schemaListSizeO] at hs'
        have hm := mem_schemaListSize hb
        omega
      have hszO : ∀ l, O = some l → ∀ b ∈ l, schemaSize b ≤ fuel := by
        intro l hl b hb
        have hs' := hsz
        rw [hl] at hs'
        simp only [schemaSize, schemaListSizeO] at hs'
        have hm := mem_schemaListSize hb
        omega
      have hszN : ∀ c0, N = some c0 → schemaSize c0 ≤ fuel := by
        intro c0 hc0
        have hs' := hsz
        rw [hc0] at hs'
        simp only [schemaSize, schemaSizeO] at hs'
        omega
      obtain ⟨hPok, hPthis, hPrec⟩ := processProps_closed ih cnp P hszP
      obtain ⟨hIok, hIthis, hIrec⟩ := processOpt_closed ih (cnp ++ ["Inner"]) I hszI
      obtain ⟨hAok, hAthis, hArec⟩ := processAddProps_closed ih (cnp ++ ["Value"]) A hszA
      obtain ⟨hALok, hALthis, hALrec⟩ := processGroup_closed ih cnp "AllOf" AL hszAL
      obtain ⟨hANok, hANthis, hANrec⟩ := processGroup_closed ih cnp "AnyOf" AN hszAN
      obtain ⟨hOok, hOthis, hOrec⟩ := processGroup_closed ih cnp "OneOf" O hszO
      obtain ⟨hNok, hNthis, hNrec⟩ := processOpt_closed ih (cnp ++ ["Not"]) N hszN
      have mk : ∀ (Pr : Option (List (String × Schema))) (Ir : Option Schema)
          (Ar : Option (Sum Bool Schema)) (ALr ANr Or2 : Option (List Schema))
          (Nr : Option Schema),
          (∀ l', Pr = some l' → ∀ kv ∈ l', ChildOk (kv : String × Schema).2) →
          (∀ c0, Ir = some c0 → ChildOk c0) →
          (∀ c0, Ar = some (.inr c0) → ChildOk c0) →
          (∀ l', ALr = some l' → ∀ c0 ∈ l', ChildOk c0) →
          (∀ l', ANr = some l' → ∀ c0 ∈ l', ChildOk c0) →
          (∀ l', Or2 = some l' → ∀ c0 ∈ l', ChildOk c0) →
          (∀ c0, Nr = some c0 → ChildOk c0) →
          ClosedV (.obj t ti Pr Ir Ar ALr ANr Or2 Nr en hh) := by
        intro Pr Ir Ar ALr ANr Or2 Nr hp1 hi1 ha1 hal1 han1 ho1 hn1
        refine ClosedV.intro ?_ ?_
        · intro c hc
          cases hc with
          | ofNot => exact (hn1 c rfl).1
          | ofItems => exact (hi1 c rfl).1
          | ofAddProps => exact (ha1 c rfl).1
          | ofProp hmem => exact (hp1 _ rfl _ hmem).1
          | ofAllOf hmem => exact (hal1 _ rfl _ hmem).1
          | ofAnyOf hmem => exact (han1 _ rfl _ hmem).1
          | ofOneOf hmem => exact (ho1 _ rfl _ hmem).1
        · intro c hc hv
          cases hc with
          | ofNot => exact (hn1 c rfl).2 hv
          | ofItems => exact (hi1 c rfl).2 hv
          | ofAddProps => exact (ha1 c rfl).2 hv
          | ofProp hmem => exact (hp1 _ rfl _ hmem).2 hv
          | ofAllOf hmem => exact (hal1 _ rfl _ hmem).2 hv
          | ofAnyOf hmem => exact (han1 _ rfl _ hmem).2 hv
          | ofOneOf hmem => exact (ho1 _ rfl _ hmem).2 hv
      refine ⟨?_, ?_⟩
      · have h1 : (hoistInline (fuel + 1) cnp (.obj t ti P I A AL AN O N en hh)).1
            = .obj t ti (processProps (hoistInline fuel) cnp P).1
                (processOpt (hoistInline fuel) (cnp ++ ["Inner"]) I).1
                (processAddProps (hoistInline fuel) (cnp ++ ["Value"]) A).1
                (processGroup (hoistInline fuel) cnp "AllOf" AL).1
                (processGroup (hoistInline fuel) cnp "AnyOf" AN).1
                (processGroup (hoistInline fuel) cnp "OneOf" O).1
                (processOpt (hoistInline fuel) (cnp ++ ["Not"]) N).1 en hh := rfl
        rw [h1]
        exact mk _ _ _ _ _ _ _ hPok hIok hAok hALok hANok hOok hNok
      · intro p hp
        have hp' : p ∈
            (processOpt (hoistInline fuel) (cnp ++ ["Not"]) N).2.1 ++
            (processGroup (hoistInline fuel) cnp "AnyOf" AN).2.1 ++
            (processGroup (hoistInline fuel) cnp "AllOf" AL).2.1 ++
            (processGroup (hoistInline fuel) cnp "OneOf" O).2.1 ++
            (processOpt (hoistInline fuel) (cnp ++ ["Inner"]) I).2.1 ++
            (processProps (hoistInline fuel) cnp P).2.1 ++
            (processAddProps (hoistInline fuel) (cnp ++ ["Value"]) A).2.1 ++
            ((processOpt (hoistInline fuel) (cnp ++ ["Not"]) N).2.2 ++
             (processGroup (hoistInline fuel) cnp "AnyOf" AN).2.2 ++
             (processGroup (hoistInline fuel) cnp "AllOf" AL).2.2 ++
             (processGroup (hoistInline fuel) cnp "OneOf" O).2.2 ++
             (processOpt (hoistInline fuel) (cnp ++ ["Inner"]) I).2.2 ++
             (processProps (hoistInline fuel) cnp P).2.2 ++
             (processAddProps (hoistInline fuel) (cnp ++ ["Value"]) A).2.2) := hp
        simp only [List.mem_append] at hp'
        casesm* _ ∨ _
        all_goals
          first
          | exact hNthis _ (by assumption)
          | exact hANthis _ (by assumption)
          | exact hALthis _ (by assumption)
          | exact hOthis _ (by assumption)
          | exact hIthis _ (by assumption)
          | exact hPthis _ (by assumption)
          | exact hAthis _ (by assumption)
          | exact hNrec _ (by assumption)
          | exact hANrec _ (by assumption)
          | exact hALrec _ (by assumption)
          | exact hOrec _ (by assumption)
          | exact hIrec _ (by assumption)
          | exact hPrec _ (by assumption)
          | exact hArec _ (by assumption)

/-! #### Association-list facts for the registration folds -/

theorem find?_cons_eq {α : Type} (p : α → Bool) (a : α) (l : List α) :
    List.find? p (a :: l) = if p a then some a else List.find? p l := by
  cases h : p a <;> simp [List.find?, h]

theorem alistGet_cons {α : Type} (k1 k : String) (v1 : α) (t : List (String × α)) :
    alistGet ((k1, v1) :: t) k = if k1 = k then some v1 else alistGet t k := by
  rw [alistGet, find?_cons_eq]
  by_cases hk : k1 = k
  · rw [if_pos (by simp [hk]), if_pos hk]
    rfl
  · rw [if_neg (by simp [hk]), if_neg hk]
    rfl

theorem alistGet_set_self {α : Type} (k : String) (v : α) :
    ∀ a : List (String × α), alistGet (alistSet a k v) k = some v := by
  intro a
  induction a with
  | nil =>
    rw [show alistSet ([] : List (String × α)) k v = [(k, v)] from rfl,
      alistGet_cons, if_pos rfl]
  | cons e t ih =>
    obtain ⟨k1, v1⟩ := e
    rw [alistSet]
    by_cases hk : k1 = k
    · rw [if_pos hk, alistGet_cons, if_pos hk]
    · rw [if_neg hk, alistGet_cons, if_neg hk]
      exact ih

theorem alistGet_set_ne {α : Type} {k1 k : String} (h : ¬ k1 = k) (v : α) :
    ∀ a : List (String × α), alistGet (alistSet a k1 v) k = alistGet a k := by
  intro a
  induction a with
  | nil =>
    rw [show alistSet ([] : List (String × α)) k1 v = [(k1, v)] from rfl,
      alistGet_cons, if_neg h]
  | cons e t ih =>
    obtain ⟨ka, va⟩ := e
    rw [alistSet]
    by_cases hk : ka = k1
    · rw [if_pos hk, alistGet_cons, alistGet_cons]
      have hka : ¬ (ka = k) := by rw [hk]; exact h
      rw [if_neg hka, if_neg hka]
    · rw [if_neg hk, alistGet_cons, alistGet_cons]
      by_cases hkb : ka = k
      · rw [if_pos hkb, if_pos hkb]
      · rw [if_neg hkb, if_neg hkb]
        exact ih

theorem alistSet_mem_weak {α : Type} {k : String} {v : α} :
    ∀ {a : List (String × α)} {kv : String × α},
      kv ∈ alistSet a k v → kv = (k, v) ∨ kv ∈ a := by
  intro a
  induction a with
  | nil =>
    intro kv h
    rcases List.mem_cons.mp h with h0 | h0
    · exact Or.inl h0
    · cases h0
  | cons e t ih =>
    intro kv h
    obtain ⟨k1, v1⟩ := e
    rw [alistSet] at h
    by_cases hk : k1 = k
    · rw [if_pos hk] at h
      rcases List.mem_cons.mp h with h0 | h0
      · exact Or.inl (by rw [h0, hk])
      · exact Or.inr (List.mem_cons_of_mem _ h0)
    · rw [if_neg hk] at h
      rcases List.mem_cons.mp h with h0 | h0
      · exact Or.inr (h0 ▸ List.mem_cons_self _ _)
      · rcases ih h0 with h1 | h1
        · exact Or.inl h1
        · exact Or.inr (List.mem_cons_of_mem _ h1)

theorem alistSet_mem_strong {α : Type} {k : String} {v : α} :
    ∀ {a : List (String × α)}, (a.map Prod.fst).Nodup →
      ∀ {kv : String × α}, kv ∈ alistSet a k v → kv = (k, v) ∨ (kv ∈ a ∧ kv.1 ≠ k) := by
  intro a
  induction a with
  | nil =>
    intro _ kv h
    rcases List.mem_cons.mp h with h0 | h0
    · exact Or.inl h0
    · cases h0
  | cons e t ih =>
    intro hnd kv h
    obtain ⟨k1, v1⟩ := e
    rw [List.map_cons, List.nodup_cons] at hnd
    obtain ⟨hk1, hndt⟩ := hnd
    rw [alistSet] at h
    by_cases hk : k1 = k
    · rw [if_pos hk] at h
      rcases List.mem_cons.mp h with h0 | h0
      · exact Or.inl (by rw [h0, hk])
      · refine Or.inr ⟨List.mem_cons_of_mem _ h0, ?_⟩
        intro hkv
        exact hk1 (List.mem_map.mpr ⟨kv, h0, hkv.trans hk.symm⟩)
    · rw [if_neg hk] at h
      rcases List.mem_cons.mp h with h0 | h0
      · refine Or.inr ⟨h0 ▸ List.mem_cons_self _ _, ?_⟩
        rw [h0]
        exact hk
      · rcases ih hndt h0 with h1 | h1
        · exact Or.inl h1
        · exact Or.inr ⟨List.mem_cons_of_mem _ h1.1, h1.2⟩

theorem alistSet_nodup {α : Type} {k : String} {v : α} :
    ∀ {a : List (String × α)}, (a.map Prod.fst).Nodup →
      ((alistSet a k v).map Prod.fst).Nodup := by
  intro a
  induction a with
  | nil =>
    intro _
    simp [alistSet]
  | cons e t ih =>
    intro hnd
    obtain ⟨k1, v1⟩ := e
    rw [List.map_cons, List.nodup_cons] at hnd
    obtain ⟨hk1, hndt⟩ := hnd
    rw [alistSet]
    by_cases hk : k1 = k
    · rw [if_pos hk, List.map_cons, List.nodup_cons]
      exact ⟨hk1, hndt⟩
    · rw [if_neg hk, List.map_cons, List.nodup_cons]
      refine ⟨?_, ih hndt⟩
      intro hmem
      obtain ⟨kv, hkv, hfst⟩ := List.mem_map.mp hmem
      rcases alistSet_mem_weak hkv with h1 | h1
      · exact hk (hfst.symm.trans (congrArg Prod.fst h1))
      · exact hk1 (List.mem_map.mpr ⟨kv, h1, hfst⟩)

theorem mem_foldl_alistSet {α : Type} :
    ∀ {ps : List (String × α)} {a : List (String × α)} {kv : String × α},
      kv ∈ ps.foldl (fun acc p => alistSet acc p.1 p.2) a →
      (∃ p ∈ ps, kv.2 = p.2) ∨ kv ∈ a := by
  intro ps
  induction ps with
  | nil =>
    intro a kv h
    exact Or.inr h
  | cons p rest ih =>
    intro a kv h
    rw [List.foldl_cons] at h
    rcases ih h with h1 | h1
    · obtain ⟨q, hq, hv⟩ := h1
      exact Or.inl ⟨q, List.mem_cons_of_mem _ hq, hv⟩
    · rcases alistSet_mem_weak h1 with h2 | h2
      · exact Or.inl ⟨p, List.mem_cons_self _ _, by rw [h2]⟩
      · exact Or.inr h2

theorem foldl_alistSet_nodup {α : Type} :
    ∀ {ps a : List (String × α)}, (a.map Prod.fst).Nodup →
      ((ps.foldl (fun acc p => alistSet acc p.1 p.2) a).map Prod.fst).Nodup := by
  intro ps
  induction ps with
  | nil =>
    intro a h
    exact h
  | cons p rest ih =>
    intro a h
    rw [List.foldl_cons]
    exact ih (alistSet_nodup h)

theorem alistGet_foldl_not_mem {α : Type} {k : String} :
    ∀ {ps : List (String × α)} {a : List (String × α)},
      (∀ q ∈ ps, q.1 ≠ k) →
      alistGet (ps.foldl (fun acc p => alistSet acc p.1 p.2) a) k = alistGet a k := by
  intro ps
  induction ps with
  | nil =>
    intro a _
    rfl
  | cons p rest ih =>
    intro a hq
    rw [List.foldl_cons, ih (fun q hq2 => hq q (List.mem_cons_of_mem _ hq2))]
    exact alistGet_set_ne (hq p (List.mem_cons_self _ _)) p.2 a

theorem alistGet_foldl_of_mem {α : Type} {k : String} {v : α} :
    ∀ {ps : List (String × α)} {a : List (String × α)},
      (ps.map Prod.fst).Nodup → (k, v) ∈ ps →
      alistGet (ps.foldl (fun acc p => alistSet acc p.1 p.2) a) k = some v := by
  intro ps
  induction ps with
  | nil =>
    intro a _ h
    cases h
  | cons p rest ih =>
    intro a hnd hm
    rw [List.map_cons, List.nodup_cons] at hnd
    obtain ⟨hp1, hndr⟩ := hnd
    rw [List.foldl_cons]
    rcases List.mem_cons.mp hm with h0 | h0
    · have hk : p.1 = k := congrArg Prod.fst h0.symm
      have hrest : ∀ q ∈ rest, q.1 ≠ k := by
        intro q hq hqk
        exact hp1 (List.mem_map.mpr ⟨q, hq, hqk.trans hk.symm⟩)
      rw [alistGet_foldl_not_mem hrest, ← h0]
      exact alistGet_set_self k v a
    · exact ih hndr h0

/-! #### Closure of the general hoisting pass -/

theorem hoistEntryStep_cases (acc : List (String × Schema)) (e : String × Schema) :
    (isRef e.2 = true ∧ hoistEntryStep acc e = acc) ∨
    hoistEntryStep acc e =
      (hoistInline (schemaSize e.2) [e.1] e.2).2.foldl (fun a p => alistSet a p.1 p.2)
        (alistSet acc e.1 (hoistInline (schemaSize e.2) [e.1] e.2).1) := by
  obtain ⟨k0, s⟩ := e
  cases s with
  | ref r => exact Or.inl ⟨rfl, rfl⟩
  | obj t ti P I A AL AN O N en hh => exact Or.inr rfl

/-- Folding the per-entry hoisting step over a snapshot leaves only `ClosedV`
values, provided every value that is not yet `ClosedV` still has a pending
non-reference snapshot entry under its key. -/
theorem hoistFold_closed :
    ∀ (suffix : List (String × Schema)) (acc : List (String × Schema)),
      (acc.map Prod.fst).Nodup →
      (∀ kv ∈ acc, ClosedV (kv : String × Schema).2 ∨
        ∃ v, ((kv : String × Schema).1, v) ∈ suffix ∧ isRef v = false) →
      ∀ kv ∈ suffix.foldl hoistEntryStep acc, ClosedV (kv : String × Schema).2 := by
  intro suffix
  induction suffix with
  | nil =>
    intro acc _ hinv kv hkv
    rcases hinv kv hkv with h | ⟨v, hv, _⟩
    · exact h
    · cases hv
  | cons e rest ih =>
    intro acc hnd hinv kv hkv
    rw [List.foldl_cons] at hkv
    rcases hoistEntryStep_cases acc e with ⟨href, hstep⟩ | hstep
    · rw [hstep] at hkv
      refine ih acc hnd ?_ kv hkv
      intro kv2 hkv2
      rcases hinv kv2 hkv2 with h | ⟨v, hv, hvref⟩
      · exact Or.inl h
      · rcases List.mem_cons.mp hv with h0 | h0
        · have hv2 : v = e.2 := congrArg Prod.snd h0
          rw [hv2, href] at hvref
          cases hvref
        · exact Or.inr ⟨v, h0, hvref⟩
    · rw [hstep] at hkv
      obtain ⟨hcl1, hcl2⟩ :=
        hoistInline_closed (schemaSize e.2) [e.1] e.2 (le_refl _)
      have hnd1 : ((alistSet acc e.1
          (hoistInline (schemaSize e.2) [e.1] e.2).1).map Prod.fst).Nodup :=
        alistSet_nodup hnd
      have hnd2 : ((((hoistInline (schemaSize e.2) [e.1] e.2).2).foldl
          (fun a p => alistSet a p.1 p.2)
          (alistSet acc e.1 (hoistInline (schemaSize e.2) [e.1] e.2).1)).map
            Prod.fst).Nodup :=
        foldl_alistSet_nodup hnd1
      refine ih _ hnd2 ?_ kv hkv
      intro kv2 hkv2
      rcases mem_foldl_alistSet hkv2 with ⟨p, hp, hv⟩ | h1
      · exact Or.inl (by rw [hv]; exact hcl2 p hp)
      · rcases alistSet_mem_strong hnd h1 with h2 | ⟨h2, hne⟩
        · exact Or.inl (by rw [h2]; exact hcl1)
        · rcases hinv kv2 h2 with h | ⟨v, hv, hvref⟩
          · exact Or.inl h
          · rcases List.mem_cons.mp hv with h0 | h0
            · exact absurd (congrArg Prod.fst h0) hne
            · exact Or.inr ⟨v, h0, hvref⟩

/-- Every value under `components/schemas` after both passes satisfies the
closure invariant (unique keys assumed on the input document's map). -/
theorem hoistSpec_schemas_closed (spec : Spec)
    (hnd : (spec.schemas.map Prod.fst).Nodup) :
    ∀ kv ∈ (hoistSpec spec).schemas, ClosedV (kv : String × Schema).2 := by
  intro kv hkv
  have hnd2 : ((hoistOperationBodies spec).schemas.map Prod.fst).Nodup :=
    foldl_alistSet_nodup hnd
  have hkv' : kv ∈ ((hoistOperationBodies spec).schemas).foldl hoistEntryStep
      ((hoistOperationBodies spec).schemas) := hkv
  refine hoistFold_closed _ _ hnd2 ?_ kv hkv'
  intro kv2 hkv2
  cases hs : kv2.2 with
  | ref r => exact Or.inl (closedV_ref r)
  | obj t ti P I A AL AN O N en hh =>
    refine Or.inr ⟨kv2.2, hkv2, ?_⟩
    rw [hs]
    rfl

/-! #### The operation-body pass leaves no hoistable body behind -/

theorem bodyNeedsHoist_some {b : BodyObject} {s : Schema}
    (h : bodyNeedsHoist b = some s) :
    jsonSchemaOf b = some s ∧ isRef s = false ∧
      (s.typeF = some "object" ∨ s.typeF = some "array") := by
  rw [bodyNeedsHoist] at h
  cases hj : jsonSchemaOf b with
  | none =>
    rw [hj] at h
    cases h
  | some s0 =>
    rw [hj] at h
    have h2 : (if isRef s0 = false ∧ (s0.typeF = some "object" ∨ s0.typeF = some "array")
        then some s0 else none) = some s := h
    by_cases hc : isRef s0 = false ∧ (s0.typeF = some "object" ∨ s0.typeF = some "array")
    · rw [if_pos hc] at h2
      obtain rfl : s0 = s := Option.some_injective _ h2
      exact ⟨rfl, hc⟩
    · rw [if_neg hc] at h2
      cases h2

theorem rewriteBody_json {b : BodyObject} {s : Schema} (h : bodyNeedsHoist b = some s)
    (name2 : String) :
    jsonSchemaOf (rewriteBody name2 b)
      = some (.ref ("#/components/schemas/" ++ name2)) := by
  obtain ⟨hj, _, _⟩ := bodyNeedsHoist_some h
  have hrw : rewriteBody name2 b = { content := b.content.map (fun c =>
      alistSet c "application/json"
        ⟨some (.ref ("#/components/schemas/" ++ name2))⟩) } := by
    rw [rewriteBody, h]
  rw [hrw]
  cases hc : b.content with
  | none =>
    rw [jsonSchemaOf, hc] at hj
    cases hj
  | some c0 =>
    have hstep : jsonSchemaOf { content := (some c0).map (fun c =>
        alistSet c "application/json"
          ⟨some (.ref ("#/components/schemas/" ++ name2))⟩) }
        = (alistGet (alistSet c0 "application/json"
            ⟨some (.ref ("#/components/schemas/" ++ name2))⟩)
            "application/json").bind (fun mt => mt.schema) := rfl
    rw [hstep, alistGet_set_self]
    rfl

theorem bodyRewrite_no_hoist (name2 : String) (b : BodyObject) :
    bodyNeedsHoist (rewriteBody name2 b) = none := by
  cases hb : bodyNeedsHoist b with
  | none =>
    have hrw : rewriteBody name2 b = b := by rw [rewriteBody, hb]
    rw [hrw, hb]
  | some s =>
    have hj := rewriteBody_json hb name2
    rw [bodyNeedsHoist, hj]
    simp [isRef]

theorem no_hoist_shape {b : BodyObject} {s : Schema} (hb : bodyNeedsHoist b = none)
    (hs : jsonSchemaOf b = some s) :
    isRef s = true ∨ (s.typeF ≠ some "object" ∧ s.typeF ≠ some "array") := by
  rw [bodyNeedsHoist, hs] at hb
  by_cases hr : isRef s = true
  · exact Or.inl hr
  · have hrf : isRef s = false := bool_eq_false hr
    have hb2 : (if isRef s = false ∧ (s.typeF = some "object" ∨ s.typeF = some "array")
        then some s else none) = none := hb
    by_cases ht : s.typeF = some "object" ∨ s.typeF = some "array"
    · rw [if_pos ⟨hrf, ht⟩] at hb2
      cases hb2
    · push_neg at ht
      exact Or.inr ht

/-- After both passes, no operation JSON body is an inline `object`/`array`
schema: each is a `$ref` or an inline schema of another type. -/
theorem opJsonBodies_hoisted (spec : Spec) :
    ∀ s ∈ opJsonBodies (hoistSpec spec),
      isRef s = true ∨ (s.typeF ≠ some "object" ∧ s.typeF ≠ some "array") := by
  intro s hs
  have hs' : s ∈ (spec.paths.map (fun pe => (pe.1,
      (⟨pe.2.operations.map (fun oe => (oe.1, rewriteOp pe.1 oe.1 oe.2))⟩ : PathItem)))).flatMap
      (fun pe => pe.2.operations.flatMap (fun oe =>
        oe.2.responses.filterMap (fun re => jsonSchemaOf re.2) ++
        (match oe.2.requestBody with
         | some rb => (jsonSchemaOf rb).toList
         | none => []))) := hs
  obtain ⟨pe, hpe, hs2⟩ := List.mem_flatMap.mp hs'
  obtain ⟨pe0, hpe0, rfl⟩ := List.mem_map.mp hpe
  have hs2' : s ∈ (pe0.2.operations.map (fun oe => (oe.1, rewriteOp pe0.1 oe.1 oe.2))).flatMap
      (fun oe => oe.2.responses.filterMap (fun re => jsonSchemaOf re.2) ++
        (match oe.2.requestBody with
         | some rb => (jsonSchemaOf rb).toList
         | none => [])) := hs2
  obtain ⟨oe, hoe, hs3⟩ := List.mem_flatMap.mp hs2'
  obtain ⟨oe0, hoe0, rfl⟩ := List.mem_map.mp hoe
  have hs4 : s ∈ ((oe0.2.responses.map (fun re =>
      (re.1, rewriteBody (opBaseName pe0.1 oe0.1 oe0.2 ++ re.1 ++ "Response") re.2))).filterMap
        (fun re => jsonSchemaOf re.2) ++
      (match oe0.2.requestBody.map (fun rb =>
          rewriteBody (opBaseName pe0.1 oe0.1 oe0.2 ++ "RequestContent") rb) with
       | some rb => (jsonSchemaOf rb).toList
       | none => [])) := hs3
  rcases List.mem_append.mp hs4 with h | h
  · obtain ⟨re, hre, hjson⟩ := List.mem_filterMap.mp h
    obtain ⟨re0, hre0, rfl⟩ := List.mem_map.mp hre
    have hj2 : jsonSchemaOf (rewriteBody (opBaseName pe0.1 oe0.1 oe0.2 ++ re0.1 ++ "Response")
        re0.2) = some s := hjson
    exact no_hoist_shape (bodyRewrite_no_hoist _ _) hj2
  · cases hrb : oe0.2.requestBody with
    | none =>
      rw [hrb] at h
      have h2 : s ∈ ([] : List Schema) := h
      cases h2
    | some rb0 =>
      rw [hrb] at h
      have h2 : s ∈ (jsonSchemaOf (rewriteBody (opBaseName pe0.1 oe0.1 oe0.2
          ++ "RequestContent") rb0)).toList := h
      rw [Option.mem_toList] at h2
      have hj2 : jsonSchemaOf (rewriteBody (opBaseName pe0.1 oe0.1 oe0.2
          ++ "RequestContent") rb0) = some s := h2
      exact no_hoist_shape (bodyRewrite_no_hoist _ _) hj2

/-! #### Concrete documents for claims C1 and C6 -/

/-- An inline `oneOf` response body with no declared `type`: the body-hoisting
condition (`type` is `object` or `array`) does not fire on it. -/
def exOneOfSchema : Schema :=
  .obj none none none none none none none
    (some [.ref "#/components/schemas/A", .ref "#/components/schemas/B"]) none none false

def exStrSchema : Schema :=
  .obj (some "string") none none none none none none none none none false

def exObjA : Schema :=
  .obj (some "object") none (some [("name", exStrSchema)]) none none none none none none
    none false

def exOpC1 : Operation :=
  { operationId := some "getA"
    responses := [("200", ⟨some [("application/json", ⟨some exOneOfSchema⟩)]⟩)]
    requestBody := none }

def exSpecC1 : Spec :=
  { paths := [("/a", ⟨[("get", exOpC1)]⟩)]
    schemas := [("A", exObjA), ("B", exObjA)] }

/-- The claim's closure property in the spec's words: after the passes, no
schema under `components/schemas` and no operation JSON body is — or contains,
at any depth along visited positions — an inline object-with-properties,
composite, or string enum. -/
def Claim1Statement (spec : Spec) : Prop :=
  (∀ kv ∈ (hoistSpec spec).schemas, ∀ c, VisitDesc c (kv : String × Schema).2 →
    needsName c = false) ∧
  (∀ s ∈ opJsonBodies (hoistSpec spec),
    needsName s = false ∧ ∀ c, VisitDesc c s → needsName c = false)

def exWidgetBodySchema : Schema :=
  .obj (some "object") none (some [("name", exStrSchema)]) none none none none none none
    none false

def exOpW : Operation :=
  { operationId := some "getWidget"
    responses := [("200", ⟨some [("application/json", ⟨some exWidgetBodySchema⟩)]⟩)]
    requestBody := none }

def exSpecW : Spec :=
  { paths := [("/widget", ⟨[("get", exOpW)]⟩)]
    schemas := [] }

/-! ### Model-graph enrichment walks (claim C4): `_ensureModelLinks`
(source lines 607-647) and `mutateWithOpenapiSchemaProperties`
(source lines 509-564)

`parse-openapi` model nodes: each node carries per-node property sub-models
(owned trees), and `array`/`dictionary` nodes carry a `link` that may point
back at a top-level model, making the graph cyclic.  JS object identity (the
passes' `Set` membership) is embedded as a numeric `id` on every node; a
`link` is either an inline child node or a by-name pointer into the top-level
model list, and link assignments made by the pass live in a state map from
node id to linked model name.  The metadata attached by
`mutateWithOpenapiSchemaProperties` (formats, vendor extensions, mock data, …)
never influences control flow, so the embedding records instead, in `trace`,
the ids of the nodes each pass processes, in processing order — the subject
of claim C4. -/

inductive PModel where
  | mk (id : Nat) (name : String) (exportType : String)
      (link : Option (Sum String PModel))
      (properties : List PModel)

def PModel.id : PModel → Nat
  | .mk i _ _ _ _ => i

def PModel.name : PModel → String
  | .mk _ n _ _ _ => n

def PModel.exportType : PModel → String
  | .mk _ _ e _ _ => e

def PModel.link : PModel → Option (Sum String PModel)
  | .mk _ _ _ l _ => l

def PModel.properties : PModel → List PModel
  | .mk _ _ _ _ p => p

def Schema.itemsF : Schema → Option Schema
  | .ref _ => none
  | .obj _ _ _ it _ _ _ _ _ _ _ => it

def Schema.addPropsF : Schema → Option (Sum Bool Schema)
  | .ref _ => none
  | .obj _ _ _ _ ap _ _ _ _ _ _ => ap

def Schema.allOfF : Schema → Option (List Schema)
  | .ref _ => none
  | .obj _ _ _ _ _ al _ _ _ _ _ => al

def Schema.anyOfF : Schema → Option (List Schema)
  | .ref _ => none
  | .obj _ _ _ _ _ _ an _ _ _ _ => an

def Schema.oneOfF : Schema → Option (List Schema)
  | .ref _ => none
  | .obj _ _ _ _ _ _ _ o _ _ _ => o

/-- `splitRef(...)[2]`: the name segment of a `#/components/schemas/Name`
reference — the part after the last `/`. -/
def refNameOf (r : String) : String :=
  ((r.toList.reverse.takeWhile (fun c => !(c = '/'))).reverse).asString

/-- `resolveIfRef` (schema side): a reference resolves against
`components/schemas`; anything else is returned unchanged. -/
def resolveIfRef (spec : Spec) (s : Schema) : Schema :=
  match s with
  | .ref r => (alistGet spec.schemas (refNameOf r)).getD (.ref r)
  | s => s

/-- lodash `_trim(name, quote-chars)` as used on property names. -/
def isQuoteChar (c : Char) : Bool := c = '"' || c = '\''

def trimQuotes (s : String) : String :=
  ((s.toList.dropWhile isQuoteChar).reverse.dropWhile isQuoteChar).reverse.asString

/-- `schema.properties?.[_trim(p.name)]` — present entries are truthy. -/
def propEntry (schema : Schema) (pname : String) : Option Schema :=
  schema.propertiesF.bind (fun l => alistGet l (trimQuotes pname))

/-- `(schema as any)[_camelCase(model.export)]` for a composed export. -/
def groupOf (schema : Schema) (ex : String) : Option (List Schema) :=
  if ex = "all-of" then schema.allOfF
  else if ex = "one-of" then schema.oneOfF
  else if ex = "any-of" then schema.anyOfF
  else none

/-- Shared walk state: the identity `visited` set, the link assignments made
by the links pass (node id ↦ linked model name), and the processing trace
(ids of nodes whose body ran, in order).  The metadata pass carries the same
state shape, leaving `links` untouched. -/
structure LinkSt where
  visited : List Nat
  links : List (Nat × String)
  trace : List Nat
deriving DecidableEq

def lookupN {α : Type} (l : List (Nat × α)) (k : Nat) : Option α :=
  (l.find? (fun e => e.1 = k)).map (fun e => e.2)

/-- `model.link`: the node's own link if set, else the assignment made by the
pass. -/
def linkOfL (links : List (Nat × String)) (m : PModel) : Option (Sum String PModel) :=
  match m.link with
  | some l => some l
  | none => (lookupN links m.id).map Sum.inl

def linkTarget (modelsByName : List (String × PModel)) :
    Sum String PModel → Option PModel
  | .inl n => alistGet modelsByName n
  | .inr pm => some pm

/-- The `additionalProperties`/`items` action of `_ensureModelLinks`
(source lines 614-632): a `$ref` sub-schema assigns the link (when the name
resolves and no link is set); an inline one recurses into the linked model. -/
def linkEdge (rec : PModel → Schema → LinkSt → LinkSt)
    (modelsByName : List (String × PModel)) (model : PModel)
    (sub : Schema) (st1 : LinkSt) : LinkSt :=
  if isRef sub then
    match sub with
    | .ref r =>
      if (alistGet modelsByName (refNameOf r)).isSome && (linkOfL st1.links model).isNone then
        { st1 with links := (model.id, refNameOf r) :: st1.links }
      else st1
    | _ => st1
  else
    match linkOfL st1.links model with
    | some l =>
      match linkTarget modelsByName l with
      | some lm => rec lm sub st1
      | none => st1
    | none => st1

/-- The property walk shared by both passes (source lines 634-637 and
551-554): the filter — not yet visited, and named in `schema.properties` — is
computed against the visited set *before* any of the recursive calls run
(JS `filter` then `forEach`). -/
def propWalk (rec : PModel → Schema → LinkSt → LinkSt) (spec : Spec)
    (model : PModel) (schema : Schema) (st2 : LinkSt) : LinkSt :=
  (model.properties.filter (fun p =>
      (!st2.visited.contains p.id) && (propEntry schema p.name).isSome)).foldl
    (fun acc p =>
      match propEntry schema p.name with
      | some ps => rec p (resolveIfRef spec ps) acc
      | none => acc) st2

/-- The composed-branches walk shared by both passes (source lines 639-646
and 556-563): each property is visited against the same-index entry of the
schema's composition list — with no visited check. -/
def composedWalk (rec : PModel → Schema → LinkSt → LinkSt) (spec : Spec)
    (model : PModel) (schema : Schema) (st3 : LinkSt) : LinkSt :=
  if model.exportType ∈ COMPOSED_SCHEMA_TYPES then
    (model.properties.enum).foldl (fun acc ip =>
      match (groupOf schema model.exportType).bind (fun l => l[ip.1]?) with
      | some sub => rec ip.2 (resolveIfRef spec sub) acc
      | none => acc) st3
  else st3

/-- `_ensureModelLinks` (source lines 607-647), fuel-indexed: an entry guard
returns on a visited node; otherwise the node is marked and processed (its id
appended to the trace), the dictionary/array link edge handled, then the
property and composed walks run. -/
def ensureLinksF (spec : Spec) (modelsByName : List (String × PModel)) :
    Nat → PModel → Schema → LinkSt → LinkSt
  | 0, _, _, st => st
  | fuel + 1, model, schema, st =>
    if model.id ∈ st.visited then st
    else
      let st1 : LinkSt := { st with visited := model.id :: st.visited, trace := st.trace ++ [model.id] }
      let st2 : LinkSt :=
        if model.exportType = "dictionary" then
          match schema.addPropsF with
          | some (.inr ap) =>
            linkEdge (ensureLinksF spec modelsByName fuel) modelsByName model ap st1
          | _ => st1
        else if model.exportType = "array" then
          match schema.itemsF with
          | some it =>
            linkEdge (ensureLinksF spec modelsByName fuel) modelsByName model it st1
          | none => st1
        else st1
      composedWalk (ensureLinksF spec modelsByName fuel) spec model schema
        (propWalk (ensureLinksF spec modelsByName fuel) spec model schema st2)

/-- The links pass driver over the top-level models (`ensureModelLinks`,
source lines 569-583), with the pass-wide shared visited set.  (The
parameter loop of lines 586-604 issues further calls of the same shape into
the same state.) -/
def ensureModelLinksModels (spec : Spec) (models : List PModel) (fuel : Nat) : LinkSt :=
  models.foldl (fun st m =>
    match alistGet spec.schemas m.name with
    | some s =>
      ensureLinksF spec (models.map (fun mm => (mm.name, mm))) fuel m
        (resolveIfRef spec s) st
    | none => st) ⟨[], [], []⟩

/-- `mutateWithOpenapiSchemaProperties` (source lines 509-564), fuel-indexed:
no entry guard — the node is processed (and its id traced) on every call; the
node is then marked; the `array` items edge and `dictionary`
additional-properties edge recurse only into a not-yet-visited link target
(a boolean `additionalProperties` is skipped); the property walk filters on
the visited set, but the composed walk does not consult it. -/
def mutateMetaF (spec : Spec) (modelsByName : List (String × PModel))
    (links : List (Nat × String)) :
    Nat → PModel → Schema → LinkSt → LinkSt
  | 0, _, _, st => st
  | fuel + 1, model, schema, st =>
    let st1 : LinkSt := { st with visited := model.id :: st.visited, trace := st.trace ++ [model.id] }
    let st2 : LinkSt :=
      if model.exportType = "array" then
        match linkOfL links model, schema.itemsF with
        | some l, some it =>
          (match linkTarget modelsByName l with
           | some lm =>
             if lm.id ∈ st1.visited then st1
             else mutateMetaF spec modelsByName links fuel lm (resolveIfRef spec it) st1
           | none => st1)
        | _, _ => st1
      else st1
    let st3 : LinkSt :=
      if model.exportType = "dictionary" then
        match linkOfL links model, schema.addPropsF with
        | some l, some (.inr ap) =>
          (match linkTarget modelsByName l with
           | some lm =>
             if lm.id ∈ st2.visited then st2
             else mutateMetaF spec modelsByName links fuel lm (resolveIfRef spec ap) st2
           | none => st2)
        | _, _ => st2
      else st2
    composedWalk (mutateMetaF spec modelsByName links fuel) spec model schema
      (propWalk (mutateMetaF spec modelsByName links fuel) spec model schema st3)

/-- The at-most-once invariant of the links walk: the trace is duplicate-free
and contained in the visited set. -/
def LinkInv (st : LinkSt) : Prop :=
  st.trace.Nodup ∧ ∀ i ∈ st.trace, i ∈ st.visited

theorem nodup_snoc {a : Nat} {l : List Nat} (hl : l.Nodup) (ha : a ∉ l) :
    (l ++ [a]).Nodup := by
  rw [List.nodup_append]
  exact ⟨hl, List.nodup_singleton a, fun x hx hxa => ha (List.mem_singleton.mp hxa ▸ hx)⟩

theorem foldl_preserve {α β : Type} {P : α → Prop} {f : α → β → α}
    (hf : ∀ a b, P a → P (f a b)) :
    ∀ (l : List β) (a : α), P a → P (l.foldl f a) := by
  intro l
  induction l with
  | nil =>
    intro a h
    exact h
  | cons x t ih =>
    intro a h
    rw [List.foldl_cons]
    exact ih _ (hf a x h)

theorem linkEdge_inv {rec : PModel → Schema → LinkSt → LinkSt}
    {mbn : List (String × PModel)} {model : PModel} {sub : Schema} {st : LinkSt}
    (hrec : ∀ m s st2, LinkInv st2 → LinkInv (rec m s st2))
    (h : LinkInv st) : LinkInv (linkEdge rec mbn model sub st) := by
  cases sub with
  | ref r =>
    have heq : linkEdge rec mbn model (.ref r) st
        = (if (alistGet mbn (refNameOf r)).isSome && (linkOfL st.links model).isNone then
            { st with links := (model.id, refNameOf r) :: st.links }
          else st) := rfl
    rw [heq]
    by_cases hc : ((alistGet mbn (refNameOf r)).isSome && (linkOfL st.links model).isNone) = true
    · rw [if_pos hc]
      exact h
    · rw [if_neg hc]
      exact h
  | obj t ti P I A AL AN O N en hh =>
    have heq : linkEdge rec mbn model (.obj t ti P I A AL AN O N en hh) st
        = (match linkOfL st.links model with
           | some l =>
             match linkTarget mbn l with
             | some lm => rec lm (.obj t ti P I A AL AN O N en hh) st
             | none => st
           | none => st) := rfl
    rw [heq]
    cases hl : linkOfL st.links model with
    | none => exact h
    | some l =>
      show LinkInv (match linkTarget mbn l with
        | some lm => rec lm (.obj t ti P I A AL AN O N en hh) st
        | none => st)
      cases ht : linkTarget mbn l with
      | none => exact h
      | some lm => exact hrec lm _ st h

theorem propWalk_inv {rec : PModel → Schema → LinkSt → LinkSt} {spec : Spec}
    {model : PModel} {schema : Schema} {st : LinkSt}
    (hrec : ∀ m s st2, LinkInv st2 → LinkInv (rec m s st2))
    (h : LinkInv st) : LinkInv (propWalk rec spec model schema st) := by
  rw [propWalk]
  refine foldl_preserve ?_ _ _ h
  intro acc p hacc
  show LinkInv (match propEntry schema p.name with
    | some ps => rec p (resolveIfRef spec ps) acc
    | none => acc)
  cases hp : propEntry schema p.name with
  | none => exact hacc
  | some ps => exact hrec p _ acc hacc

theorem composedWalk_inv {rec : PModel → Schema → LinkSt → LinkSt} {spec : Spec}
    {model : PModel} {schema : Schema} {st : LinkSt}
    (hrec : ∀ m s st2, LinkInv st2 → LinkInv (rec m s st2))
    (h : LinkInv st) : LinkInv (composedWalk rec spec model schema st) := by
  rw [composedWalk]
  by_cases hc : model.exportType ∈ COMPOSED_SCHEMA_TYPES
  · rw [if_pos hc]
    refine foldl_preserve ?_ _ _ h
    intro acc ip hacc
    show LinkInv (match (groupOf schema model.exportType).bind (fun l => l[ip.1]?) with
      | some sub => rec ip.2 (resolveIfRef spec sub) acc
      | none => acc)
    cases hg : (groupOf schema model.exportType).bind (fun l => l[ip.1]?) with
    | none => exact hacc
    | some sub => exact hrec ip.2 _ acc hacc
  · rw [if_neg hc]
    exact h

/-- The links walk processes each node at most once: the entry guard runs the
body only on an unvisited node, which is marked before any recursion, so the
trace stays duplicate-free — for every input, fuel and starting state. -/
theorem ensureLinksF_inv (spec : Spec) (mbn : List (String × PModel)) :
    ∀ fuel model schema st, LinkInv st →
      LinkInv (ensureLinksF spec mbn fuel model schema st) := by
  intro fuel
  induction fuel with
  | zero =>
    intro model schema st h
    exact h
  | succ fuel ih =>
    intro model schema st h
    by_cases hv : model.id ∈ st.visited
    · have heq : ensureLinksF spec mbn (fuel + 1) model schema st = st := by
        rw [ensureLinksF, if_pos hv]
      rw [heq]
      exact h
    · have heq : ensureLinksF spec mbn (fuel + 1) model schema st
          = composedWalk (ensureLinksF spec mbn fuel) spec model schema
              (propWalk (ensureLinksF spec mbn fuel) spec model schema
                (if model.exportType = "dictionary" then
                  match schema.addPropsF with
                  | some (.inr ap) =>
                    linkEdge (ensureLinksF spec mbn fuel) mbn model ap
                      { st with visited := model.id :: st.visited, trace := st.trace ++ [model.id] }
                  | _ => { st with visited := model.id :: st.visited, trace := st.trace ++ [model.id] }
                 else if model.exportType = "array" then
                  match schema.itemsF with
                  | some it =>
                    linkEdge (ensureLinksF spec mbn fuel) mbn model it
                      { st with visited := model.id :: st.visited, trace := st.trace ++ [model.id] }
                  | none => { st with visited := model.id :: st.visited, trace := st.trace ++ [model.id] }
                 else { st with visited := model.id :: st.visited, trace := st.trace ++ [model.id] })) := by
        rw [ensureLinksF, if_neg hv]
      rw [heq]
      have h1 : LinkInv { st with visited := model.id :: st.visited, trace := st.trace ++ [model.id] } := by
        refine ⟨nodup_snoc h.1 (fun hmem => hv (h.2 _ hmem)), ?_⟩
        intro i hi
        rcases List.mem_append.mp hi with hi1 | hi2
        · exact List.mem_cons_of_mem _ (h.2 i hi1)
        · rw [List.mem_singleton.mp hi2]
          exact List.mem_cons_self _ _
      have h2 : LinkInv (if model.exportType = "dictionary" then
          match schema.addPropsF with
          | some (.inr ap) =>
            linkEdge (ensureLinksF spec mbn fuel) mbn model ap
              { st with visited := model.id :: st.visited, trace := st.trace ++ [model.id] }
          | _ => { st with visited := model.id :: st.visited, trace := st.trace ++ [model.id] }
         else if model.exportType = "array" then
          match schema.itemsF with
          | some it =>
            linkEdge (ensureLinksF spec mbn fuel) mbn model it
              { st with visited := model.id :: st.visited, trace := st.trace ++ [model.id] }
          | none => { st with visited := model.id :: st.visited, trace := st.trace ++ [model.id] }
         else { st with visited := model.id :: st.visited, trace := st.trace ++ [model.id] }) := by
        by_cases hd : model.exportType = "dictionary"
        · rw [if_pos hd]
          cases ha : schema.addPropsF with
          | none => exact h1
          | some x =>
            cases x with
            | inl b => exact h1
            | inr ap => exact linkEdge_inv ih h1
        · rw [if_neg hd]
          by_cases har : model.exportType = "array"
          · rw [if_pos har]
            cases hi : schema.itemsF with
            | none => exact h1
            | some it => exact linkEdge_inv ih h1
          · rw [if_neg har]
            exact h1
      exact composedWalk_inv ih (propWalk_inv ih h2)

/-- The links pass driver keeps the invariant over its pass-wide shared
state. -/
theorem ensureModelLinksModels_inv (spec : Spec) (models : List PModel) (fuel : Nat) :
    LinkInv (ensureModelLinksModels spec models fuel) := by
  rw [ensureModelLinksModels]
  refine foldl_preserve ?_ _ _ ⟨List.nodup_nil, fun i hi => absurd hi (List.not_mem_nil i)⟩
  intro st m hst
  show LinkInv (match alistGet spec.schemas m.name with
    | some s =>
      ensureLinksF spec (models.map (fun mm => (mm.name, mm))) fuel m
        (resolveIfRef spec s) st
    | none => st)
  cases hm : alistGet spec.schemas m.name with
  | none => exact hst
  | some s => exact ensureLinksF_inv spec _ fuel m _ st hst

/-! #### Concrete graphs for claim C4: the claim's cyclic examples and the
metadata pass's double-processing -/

/-- A self-referential array model (`A` is an array whose items are `A`). -/
def exArrM : PModel := .mk 10 "A" "array" none []

/-- A self-referential dictionary model. -/
def exDictM : PModel := .mk 11 "D" "dictionary" none []

def exSchemaA : Schema :=
  .obj (some "array") none none (some (.ref "#/components/schemas/A")) none none none none
    none none false

def exSchemaD : Schema :=
  .obj (some "object") none none none (some (.inr (.ref "#/components/schemas/D"))) none
    none none none none false

def exSpecCyc : Spec :=
  { paths := []
    schemas := [("A", exSchemaA), ("D", exSchemaD)] }

def exMbnCyc : List (String × PModel) := [("A", exArrM), ("D", exDictM)]

/-- A composed (`all-of`) model whose single branch property also matches a
declared object property of the schema: both the property walk and the
composed walk recurse into it. -/
def exPropM : PModel := .mk 1 "x" "any" none []

def exCompM : PModel := .mk 0 "M" "all-of" none [exPropM]

def exSchemaM : Schema :=
  .obj none none (some [("x", exStrSchema)]) none none (some [exStrSchema]) none none
    none none false

/-- Claim C4 as stated: every enrichment pass processes each node at most
once — composite resolution's per-model info is attached once, and the link
and metadata walks never trace a node twice. -/
def Claim4Statement : Prop :=
  (∀ models st, ensureCompositeModels models = .ok st → (st.info.map Prod.fst).Nodup) ∧
  (∀ spec mbn fuel model schema,
    (ensureLinksF spec mbn fuel model schema ⟨[], [], []⟩).trace.Nodup) ∧
  (∀ spec mbn links fuel model schema,
    (mutateMetaF spec mbn links fuel model schema ⟨[], [], []⟩).trace.Nodup)

end TsApi

/-! ## Claim theorems: naming and parameter translation -/

open TsApi

/-- **C7**: the snake_case projection inserts a separator before a
newly-capitalized word following an all-caps run (`HTTPResponse` ↦
`http_response`), inserts a separator between a lowercase letter or digit and a
following uppercase letter (`myVar2X` ↦ `my_var2_x`, separating before the
trailing uppercase), turns a `.` into the segment separator, expands `$` to two
underscores, and lowercases the result (for every input, no uppercase letter
survives in the output). -/
theorem claim_C7_snake_case_rules :
    snakeCase "HTTPResponse" = "http_response" ∧
    snakeCase "myVar2X" = "my_var2_x" ∧
    snakeCase "My.Model" = "my/model" ∧
    snakeCase "a$b" = "a__b" ∧
    (∀ s : String, ∀ c ∈ (snakeCase s).toList, isUpperA c = false) := by
  refine ⟨by decide, by decide, by decide, by decide, ?_⟩
  intro s c hc
  simp only [snakeCase, List.toList_asString, lowerPass, List.mem_map] at hc
  obtain ⟨a, _, rfl⟩ := hc
  exact isUpperA_toLower a

/-- **C8 counterexample**: `with` is not in the Java reserved-word table, so
the Java name projection maps the query parameter name `with` to itself — not
to a name distinct from the raw identifier as the claim states. -/
theorem claim_C8_counterexample : toJavaName "with" = "with" := by decide

/-- **C8 (amended)**: Python projection (whose reserved-word table contains all
of `with`, `if`, `class`) gives three names pairwise distinct and each distinct
from its raw input; the Java projection escapes `if` and `class` (distinct from
raw and from each other) but maps `with`, which is not a Java reserved word, to
itself; both projections are deterministic (pure functions of their input). -/
theorem claim_C8_amended :
    (toPythonName .property "with" = "varwith" ∧
     toPythonName .property "if" = "varif" ∧
     toPythonName .property "class" = "varclass" ∧
     ("varwith" : String) ≠ "with" ∧ ("varif" : String) ≠ "if" ∧
     ("varclass" : String) ≠ "class" ∧
     ("varwith" : String) ≠ "varif" ∧ ("varif" : String) ≠ "varclass" ∧
     ("varwith" : String) ≠ "varclass") ∧
    (toJavaName "if" = "_if" ∧ toJavaName "class" = "propertyClass" ∧
     toJavaName "with" = "with" ∧
     ("_if" : String) ≠ "if" ∧ ("propertyClass" : String) ≠ "class" ∧
     ("_if" : String) ≠ "propertyClass") ∧
    (∀ e n, toPythonName e n = toPythonName e n) ∧
    (∀ n, toJavaName n = toJavaName n) := by
  exact ⟨⟨by decide, by decide, by decide, by decide, by decide, by decide,
          by decide, by decide, by decide⟩,
         ⟨by decide, by decide, by decide, by decide, by decide, by decide⟩,
         fun _ _ => rfl, fun _ => rfl⟩

/-- **C9**: the collection-format translation yields `multi` for any exploded
query parameter, otherwise maps `spaceDelimited`/`pipeDelimited`/`simple`/`form`
to `ssv`/`tsv`/`csv`/`csv`; `style` defaults to `form` for query parameters and
`simple` for headers, and `explode` defaults to true exactly when the
(defaulted) style is `form`; headers yield `multi` when exploded and `csv`
otherwise. In particular `spaceDelimited, explode: false` ↦ `ssv` and
`spaceDelimited, explode: true` ↦ `multi`. -/
theorem claim_C9_collection_format :
    (∀ st, collectionFormat .query st (some true) = "multi") ∧
    collectionFormat .query (some .spaceDelimited) (some false) = "ssv" ∧
    collectionFormat .query (some .pipeDelimited) (some false) = "tsv" ∧
    collectionFormat .query (some .simple) (some false) = "csv" ∧
    collectionFormat .query (some .form) (some false) = "csv" ∧
    (∀ ex, collectionFormat .query none ex = collectionFormat .query (some .form) ex) ∧
    (∀ ex, collectionFormat .header none ex = collectionFormat .header (some .simple) ex) ∧
    (∀ loc s, collectionFormat loc (some s) none
      = collectionFormat loc (some s) (some (s = ParamStyle.form))) ∧
    (∀ st, collectionFormat .header st (some true) = "multi") ∧
    (∀ st, collectionFormat .header st (some false) = "csv") ∧
    collectionFormat .query (some .spaceDelimited) (some true) = "multi" := by
  refine ⟨fun st => ?_, by decide, by decide, by decide, by decide,
          fun ex => rfl, fun ex => rfl, fun loc s => rfl, fun st => ?_, fun st => ?_, by decide⟩
  · cases st <;> rfl
  · cases st <;> rfl
  · cases st <;> rfl

/-- Witness for C7 at a concrete input. -/
theorem claim_C7_witness : snakeCase "HTTPResponse" = "http_response" ∧ isUpperA 'a' = false :=
  ⟨claim_C7_snake_case_rules.1,
   claim_C7_snake_case_rules.2.2.2.2 "Ab" 'a' (by decide)⟩

/-! ## Claim theorems: default-response aliasing (C5) -/

/-- **C5**: if an operation declares a `default` response and an explicit `200`
response whose parsed model is structurally identical to the default response
parsed at code 200, normalization rewrites that entry's code from 200 to the
sentinel 0 (and the identical default-derived entry collapses to the same
code-0 model, so no separate default-coded entry remains — every merged entry
carries a numeric code, the `default` key having been parsed at 200); a 200
response not structurally identical to the default keeps code 200. -/
theorem claim_C5_default_aliasing
    (parse : String → Nat → OpResponse)
    (raw : List (String × String)) (d : String)
    (hd : findDefaultRaw raw = some d)
    (r : OpResponse) (hr : r ∈ mergeOperationResponses raw parse)
    (hc : r.code = 200) (heq : r = parse d 200) :
    ({ r with code := 0 } ∈ operationResponses raw parse ∧
     r ∉ operationResponses raw parse) ∧
    (∀ r' ∈ mergeOperationResponses raw parse, r'.code = 200 → r' ≠ parse d 200 →
      r' ∈ operationResponses raw parse) ∧
    (∀ r' ∈ mergeOperationResponses raw parse, r'.code ≠ 200 →
      r' ∈ operationResponses raw parse) := by
  simp only [operationResponses, normalizeResponseCodes, hd, Option.map_some']
  refine ⟨⟨?_, ?_⟩, ?_, ?_⟩
  · refine List.mem_map.mpr ⟨r, hr, ?_⟩
    rw [if_pos ⟨hc, by rw [heq]⟩]
  · intro hmem
    obtain ⟨a, _, ha⟩ := List.mem_map.mp hmem
    by_cases h : a.code = 200 ∧ some a = some (parse d 200)
    · rw [if_pos h] at ha
      have : r.code = 0 := by rw [← ha]
      omega
    · rw [if_neg h] at ha
      subst ha
      exact h ⟨hc, by rw [heq]⟩
  · intro r' hr' hc' hne
    refine List.mem_map.mpr ⟨r', hr', ?_⟩
    rw [if_neg]
    rintro ⟨-, h⟩
    exact hne (Option.some_injective _ h)
  · intro r' hr' hc'
    refine List.mem_map.mpr ⟨r', hr', ?_⟩
    rw [if_neg]
    rintro ⟨h, -⟩
    exact hc' h

/-- Witness for C5 at a concrete operation: responses `200` and `default` with
identical bodies, plus a distinct `404`. -/
theorem claim_C5_witness :
    ({ code := 0, payload := "ok" } ∈
      operationResponses [("200", "ok"), ("404", "err"), ("default", "ok")]
        (fun s c => { code := c, payload := s }) ∧
     ({ code := 200, payload := "ok" } : OpResponse) ∉
      operationResponses [("200", "ok"), ("404", "err"), ("default", "ok")]
        (fun s c => { code := c, payload := s })) ∧
    (∀ r' ∈ mergeOperationResponses [("200", "ok"), ("404", "err"), ("default", "ok")]
        (fun s c => { code := c, payload := s }),
      r'.code = 200 → r' ≠ { code := 200, payload := "ok" } →
      r' ∈ operationResponses [("200", "ok"), ("404", "err"), ("default", "ok")]
        (fun s c => { code := c, payload := s })) ∧
    (∀ r' ∈ mergeOperationResponses [("200", "ok"), ("404", "err"), ("default", "ok")]
        (fun s c => { code := c, payload := s }),
      r'.code ≠ 200 →
      r' ∈ operationResponses [("200", "ok"), ("404", "err"), ("default", "ok")]
        (fun s c => { code := c, payload := s })) :=
  claim_C5_default_aliasing (fun s c => { code := c, payload := s })
    [("200", "ok"), ("404", "err"), ("default", "ok")] "ok"
    (by decide) { code := 200, payload := "ok" } (by decide) rfl rfl

/-! ## Claim theorems: file assembly (C10) -/

/-- Counterexample input for C10: segment `a` conditional on `b`, `b`
conditional on `c`, and only `c`'s destination already exists. -/
def exSegs10 : List RawSegment :=
  [{ config := { id := some "a", dir := "d", name := "a", ext := ".txt",
                 overwrite := false, generateConditionallyId := some "b" },
     contents := "A" },
   { config := { id := some "b", dir := "d", name := "b", ext := ".txt",
                 overwrite := false, generateConditionallyId := some "c" },
     contents := "B" },
   { config := { id := some "c", dir := "d", name := "c", ext := ".txt",
                 overwrite := false, generateConditionallyId := none },
     contents := "C" }]

def exFs10 : String → Bool := fun p => p = "d/c.txt"

def exA10 : SplitFile :=
  { contents := "A", pathRelativeToOutputPath := "d/a.txt",
    config := { id := some "a", dir := "d", name := "a", ext := ".txt",
                overwrite := false, generateConditionallyId := some "b" },
    shouldWrite := true }

def exB10 : SplitFile :=
  { contents := "B", pathRelativeToOutputPath := "d/b.txt",
    config := { id := some "b", dir := "d", name := "b", ext := ".txt",
                overwrite := false, generateConditionallyId := some "c" },
    shouldWrite := true }

/-- **C10 counterexample**: the conditional-write check consults the target
segment's `shouldWrite` flag, not whether the target was actually written.
With segment `a` conditional on `b`, `b` conditional on `c`, and only `c`'s
destination already existing (no overwrite): `c` is not written, hence `b` is
not written — but `a` *is* written because `b`'s flag passed.  This violates
the claim as stated. -/
theorem claim_C10_counterexample : ¬ Claim10Statement exSegs10 exFs10 := by
  intro h
  have hA := h exA10 (by decide)
  have h2 := hA.mp (by decide)
  have h3 : exB10 ∈ writtenFiles exSegs10 exFs10 := h2.2
  exact absurd h3 (by decide)

/-- **C10 (amended)**: a segment is written iff its own exists/overwrite check
passes AND, when `generateConditionallyId` is set, the *flag* of the segment
registered under that id passes (`shouldWrite`, i.e. that segment's own
exists/overwrite check) — with a missing id treated as satisfied.  When the
target segment has no `generateConditionallyId` of its own, its flag coincides
with it actually being written, which recovers the claim's reading for
single-level conditionals. -/
theorem claim_C10_amended (segments : List RawSegment) (fsExists : String → Bool) :
    (∀ s ∈ splitFilesOf segments fsExists,
      (s ∈ writtenFiles segments fsExists ↔
        (s.shouldWrite = true ∧
         conditionalShouldWrite s (splitFilesOf segments fsExists) = true))) ∧
    (∀ s ∈ splitFilesOf segments fsExists,
      s.shouldWrite
        = (!fsExists s.pathRelativeToOutputPath || s.config.overwrite)) ∧
    (∀ t ∈ splitFilesOf segments fsExists, t.config.generateConditionallyId = none →
      (t ∈ writtenFiles segments fsExists ↔ t.shouldWrite = true)) := by
  refine ⟨?_, ?_, ?_⟩
  · intro s hs
    unfold writtenFiles
    rw [List.mem_filter, Bool.and_eq_true]
    tauto
  · intro s hs
    obtain ⟨seg, -, rfl⟩ := List.mem_map.mp hs
    rfl
  · intro t ht hg
    have hnone : lookupById (splitFilesOf segments fsExists) "" = none := by
      unfold lookupById
      rw [List.filter_eq_nil_iff.mpr, List.getLast?_nil]
      intro s hs
      simp only [decide_eq_true_eq]
      unfold truthyId
      match h : s.config.id with
      | none => simp
      | some i =>
        split
        · simp
        · next hi => simp [hi]
    have hcond : conditionalShouldWrite t (splitFilesOf segments fsExists) = true := by
      unfold conditionalShouldWrite
      rw [hg, Option.getD_none, hnone]
    unfold writtenFiles
    rw [List.mem_filter, Bool.and_eq_true, hcond]
    tauto

/-- Witness for C10 (amended) at a concrete input: one fresh overwrite segment
with no condition is written. -/
theorem claim_C10_witness :
    ({ contents := "X", pathRelativeToOutputPath := "d/x.txt",
       config := { id := none, dir := "d", name := "x", ext := ".txt",
                   overwrite := true, generateConditionallyId := none },
       shouldWrite := true } : SplitFile) ∈
      writtenFiles
        [{ config := { id := none, dir := "d", name := "x", ext := ".txt",
                       overwrite := true, generateConditionallyId := none },
           contents := "X" }]
        (fun _ => false) :=
  ((claim_C10_amended
      [{ config := { id := none, dir := "d", name := "x", ext := ".txt",
                     overwrite := true, generateConditionallyId := none },
         contents := "X" }]
      (fun _ => false)).2.2 _ (by decide) rfl).mpr rfl

/-! ## Claim theorems: composite resolution (C2, C3) -/

/-- **C2**: `allOf` composition validity.  If any model in the graph is an
`allOf` composing a non-reference (inline primitive) member, composite
resolution fails with the `InvalidComposition` error whose message names an
offending model — and names exactly the offending model when it is unique;
if no model composes a non-object member, no error is raised. -/
theorem claim_C2_allof_composition (models : List CModel)
    (hnd : (models.map CModel.name).Nodup) :
    (∀ m ∈ models, Offending m →
       ∃ w ∈ models, Offending w ∧
         ensureCompositeModels models = .error (invalidCompositionMsg w.name)) ∧
    (∀ m ∈ models, Offending m → (∀ m' ∈ models, Offending m' → m' = m) →
       ensureCompositeModels models = .error (invalidCompositionMsg m.name)) ∧
    ((∀ m ∈ models, ¬ Offending m) → ∃ st, ensureCompositeModels models = .ok st) := by
  have herr : ∀ m ∈ models, Offending m →
      ∃ w ∈ models, Offending w ∧
        ensureCompositeModels models = .error (invalidCompositionMsg w.name) := by
    intro m hm hoff
    have hchar := ensureComposite_char models
    cases hres : ensureCompositeModels models with
    | ok st =>
      exfalso
      have hcomp : m.exportType ∈ COMPOSED_SCHEMA_TYPES := by
        rw [hoff.1]; decide
      exact (ensureComposite_ok_info hnd hres m hm hcomp).1 hoff
    | error e =>
      rw [hres] at hchar
      obtain ⟨w, hw, hoffw, he⟩ := hchar
      exact ⟨w, hw, hoffw, congrArg Except.error he⟩
  refine ⟨herr, ?_, ?_⟩
  · intro m hm hoff huniq
    obtain ⟨w, hw, hoffw, hres⟩ := herr m hm hoff
    rw [huniq w hw hoffw] at hres
    exact hres
  · intro hclean
    have hchar := ensureComposite_char models
    cases hres : ensureCompositeModels models with
    | ok st => exact ⟨st, rfl⟩
    | error e =>
      rw [hres] at hchar
      obtain ⟨w, hw, hoffw, _⟩ := hchar
      exact absurd hoffw (hclean w hw)

/-- A chain of `allOf` models: `A` composes `B`, `B` composes `C`, `C` is a
plain object. -/
def exChain : List CModel :=
  [⟨"A", "all-of", [⟨"", "reference", "B"⟩]⟩,
   ⟨"B", "all-of", [⟨"", "reference", "C"⟩]⟩,
   ⟨"C", "interface", []⟩]

/-- Witness for C2 at concrete inputs: a lone offending `allOf` fails with the
error naming it, and a clean `allOf` chain succeeds. -/
theorem claim_C2_witness :
    ensureCompositeModels [⟨"A", "all-of", [⟨"", "number", "number"⟩]⟩]
      = .error (invalidCompositionMsg "A") ∧
    (∃ st, ensureCompositeModels exChain = .ok st) :=
  ⟨(claim_C2_allof_composition [⟨"A", "all-of", [⟨"", "number", "number"⟩]⟩]
      (by decide)).2.1 ⟨"A", "all-of", [⟨"", "number", "number"⟩]⟩
      (by decide) (by decide) (by decide),
   (claim_C2_allof_composition exChain (by decide)).2.2 (by decide)⟩

/-- Claim C3 as stated: for an `allOf` model composing only object members,
the attached `composedModels` contains every transitively flattened member
exactly once. -/
def Claim3Statement (models : List CModel) : Prop :=
  ∀ st, ensureCompositeModels models = .ok st →
    ∀ m ∈ models, m.exportType = "all-of" →
      (∀ p ∈ m.properties, p.name = "" → p.exportType = "reference") →
      ∀ b, TransMember models b m.name →
        ∀ i, (m.name, i) ∈ st.info → i.composedModels.count b = 1

/-- **C3 counterexample**: `composedModels` holds only the *direct* members.
In the chain `A allOf [B]`, `B allOf [C]`, the transitively flattened member
`C` does not occur in `A`'s `composedModels` (which is just `[B]`), so the
claim as stated fails. -/
theorem claim_C3_counterexample : ¬ Claim3Statement exChain := by
  intro h
  have htB : TransMember exChain "C" "B" :=
    TransMember.direct (m := ⟨"B", "all-of", [⟨"", "reference", "C"⟩]⟩)
      (by decide) (by decide)
  have htA : TransMember exChain "C" "A" :=
    TransMember.nest (m := ⟨"A", "all-of", [⟨"", "reference", "B"⟩]⟩)
      (by decide) (by decide) htB
  have hcount := h { visited := ["B", "A"],
                     info := [("B", ⟨["C"], []⟩), ("A", ⟨["B"], []⟩)] } rfl
    ⟨"A", "all-of", [⟨"", "reference", "B"⟩]⟩ (by decide) rfl (by decide)
    "C" htA ⟨["B"], []⟩ (by decide)
  exact absurd hcount (by decide)

/-- **C3 (amended)**: after successful composite resolution, each composed
model's attached `composedModels` is exactly the list of its *direct*
resolvable members, in declaration order (nested `allOf` chains are resolved
recursively on the member models themselves, not flattened into the parent);
when the direct member names are pairwise distinct, each occurs exactly
once. -/
theorem claim_C3_amended (models : List CModel) (hnd : (models.map CModel.name).Nodup)
    (st : CompSt) (hok : ensureCompositeModels models = .ok st)
    (m : CModel) (hm : m ∈ models) (hcomp : m.exportType ∈ COMPOSED_SCHEMA_TYPES) :
    st.info.lookup m.name = some (directInfo models m) ∧
    ((directMemberNames models m).Nodup →
      ∀ b ∈ directMemberNames models m, (directMemberNames models m).count b = 1) :=
  ⟨(ensureComposite_ok_info hnd hok m hm hcomp).2,
   fun hnodup _ hb => List.count_eq_one_of_mem hnodup hb⟩

/-- Witness for C3 (amended): in the chain, `A`'s attached info is exactly its
direct member `B`. -/
theorem claim_C3_witness :
    (CompSt.mk ["B", "A"] [("B", ⟨["C"], []⟩), ("A", ⟨["B"], []⟩)]).info.lookup "A"
      = some (directInfo exChain ⟨"A", "all-of", [⟨"", "reference", "B"⟩]⟩) :=
  (claim_C3_amended exChain (by decide) _ rfl ⟨"A", "all-of", [⟨"", "reference", "B"⟩]⟩
    (by decide) (by decide)).1

/-! ## Claim theorems: the hoisting passes (C1, C6) -/

/-- **C1 counterexample**: the claimed closure fails at operation bodies.  An
operation response declaring an inline `oneOf` composite with no `type` is not
touched by the operation-body pass (whose condition requires an inline
`object`/`array` body) nor by the `components/schemas` pass (which never
rewrites the paths), so after both passes an operation JSON body is still an
inline composite. -/
theorem claim_C1_counterexample : ¬ Claim1Statement exSpecC1 := by
  intro h
  have he : opJsonBodies (hoistSpec exSpecC1) = [exOneOfSchema] := rfl
  have hmem : exOneOfSchema ∈ opJsonBodies (hoistSpec exSpecC1) := by
    rw [he]
    exact List.mem_cons_self _ _
  have hf := (h.2 exOneOfSchema hmem).1
  have ht : needsName exOneOfSchema = true := rfl
  rw [ht] at hf
  cases hf

/-- **C1 (amended)**: under unique `components/schemas` keys, after the two
hoisting passes every value under `components/schemas` is closed along visited
positions — no sub-schema reached by descending through visitable positions
(`VisitDesc`) is an inline object-with-declared-properties, an inline
composite, or an inline string enum (`needsName` is false on all of them) —
and every operation JSON body is a `$ref` or an inline schema whose `type` is
neither `object` nor `array`.  (At operation bodies the original claim is
false: an inline composite body without `type` survives,
`claim_C1_counterexample`; below visited positions the registered schemas are
fully clean.) -/
theorem claim_C1_amended (spec : Spec) (hnd : (spec.schemas.map Prod.fst).Nodup) :
    (∀ kv ∈ (hoistSpec spec).schemas, ∀ c, VisitDesc c (kv : String × Schema).2 →
      needsName c = false) ∧
    (∀ s ∈ opJsonBodies (hoistSpec spec),
      isRef s = true ∨ (s.typeF ≠ some "object" ∧ s.typeF ≠ some "array")) := by
  refine ⟨?_, opJsonBodies_hoisted spec⟩
  intro kv hkv c hdesc
  exact closedV_desc (hoistSpec_schemas_closed spec hnd kv hkv) c hdesc

/-- Witness for C1 (amended) on the concrete counterexample document. -/
theorem claim_C1_witness :
    (exSpecC1.schemas.map Prod.fst).Nodup ∧
    (∀ kv ∈ (hoistSpec exSpecC1).schemas, ∀ c, VisitDesc c (kv : String × Schema).2 →
      needsName c = false) ∧
    (∀ s ∈ opJsonBodies (hoistSpec exSpecC1),
      isRef s = true ∨ (s.typeF ≠ some "object" ∧ s.typeF ≠ some "array")) := by
  have h := claim_C1_amended exSpecC1 (by decide)
  exact ⟨by decide, h.1, h.2⟩

/-- **C6**: operation-body hoisting.  For every operation, the synthesized base
name is `PascalCase(operationId ?? path-method)`; the rewritten operation is
registered in the output paths; every inline `object`/`array` JSON response
body keyed by status code is replaced by a `$ref` to `{base}{code}Response`
and registered under that name in `components/schemas`; an inline JSON request
body is likewise replaced by a `$ref` to `{base}RequestContent` and registered
(unique synthesized names assumed so no registration is overwritten). -/
theorem claim_C6_body_hoisting (spec : Spec)
    (hnd : ((bodyRegs spec).map Prod.fst).Nodup) :
    ∀ pe ∈ spec.paths, ∀ oe ∈ (pe : String × PathItem).2.operations,
      (opBaseName pe.1 oe.1 oe.2
        = pascalCase ((oe : String × Operation).2.operationId.getD (pe.1 ++ "-" ++ oe.1))) ∧
      ((pe.1, (⟨pe.2.operations.map (fun oe2 => (oe2.1, rewriteOp pe.1 oe2.1 oe2.2))⟩ :
          PathItem)) ∈ (hoistOperationBodies spec).paths) ∧
      (∀ re ∈ (oe : String × Operation).2.responses, ∀ s, bodyNeedsHoist re.2 = some s →
        ((re.1, rewriteBody (opBaseName pe.1 oe.1 oe.2 ++ re.1 ++ "Response") re.2)
            ∈ (rewriteOp pe.1 oe.1 oe.2).responses ∧
          jsonSchemaOf (rewriteBody (opBaseName pe.1 oe.1 oe.2 ++ re.1 ++ "Response") re.2)
            = some (.ref ("#/components/schemas/"
                ++ (opBaseName pe.1 oe.1 oe.2 ++ re.1 ++ "Response"))) ∧
          alistGet (hoistOperationBodies spec).schemas
            (opBaseName pe.1 oe.1 oe.2 ++ re.1 ++ "Response") = some s)) ∧
      (∀ rb, (oe : String × Operation).2.requestBody = some rb →
        ∀ s, bodyNeedsHoist rb = some s →
        ((rewriteOp pe.1 oe.1 oe.2).requestBody
            = some (rewriteBody (opBaseName pe.1 oe.1 oe.2 ++ "RequestContent") rb) ∧
          jsonSchemaOf (rewriteBody (opBaseName pe.1 oe.1 oe.2 ++ "RequestContent") rb)
            = some (.ref ("#/components/schemas/"
                ++ (opBaseName pe.1 oe.1 oe.2 ++ "RequestContent"))) ∧
          alistGet (hoistOperationBodies spec).schemas
            (opBaseName pe.1 oe.1 oe.2 ++ "RequestContent") = some s)) := by
  intro pe hpe oe hoe
  refine ⟨rfl, ?_, ?_, ?_⟩
  · show _ ∈ spec.paths.map (fun pe2 => (pe2.1,
      (⟨pe2.2.operations.map (fun oe2 => (oe2.1, rewriteOp pe2.1 oe2.1 oe2.2))⟩ : PathItem)))
    exact List.mem_map.mpr ⟨pe, hpe, rfl⟩
  · intro re hre s hb
    refine ⟨?_, rewriteBody_json hb _, ?_⟩
    · show _ ∈ oe.2.responses.map (fun re2 =>
        (re2.1, rewriteBody (opBaseName pe.1 oe.1 oe.2 ++ re2.1 ++ "Response") re2.2))
      exact List.mem_map.mpr ⟨re, hre, rfl⟩
    · have hreg : (opBaseName pe.1 oe.1 oe.2 ++ re.1 ++ "Response", s) ∈ bodyRegs spec := by
        rw [bodyRegs]
        refine List.mem_flatMap.mpr ⟨pe, hpe, ?_⟩
        refine List.mem_flatMap.mpr ⟨oe, hoe, ?_⟩
        rw [opRegs]
        refine List.mem_append_left _ ?_
        refine List.mem_filterMap.mpr ⟨re, hre, ?_⟩
        rw [hb]
        rfl
      exact alistGet_foldl_of_mem hnd hreg
  · intro rb hrb s hb
    refine ⟨?_, rewriteBody_json hb _, ?_⟩
    · show oe.2.requestBody.map (fun rb2 =>
          rewriteBody (opBaseName pe.1 oe.1 oe.2 ++ "RequestContent") rb2)
        = some (rewriteBody (opBaseName pe.1 oe.1 oe.2 ++ "RequestContent") rb)
      rw [hrb]
      rfl
    · have hreg : (opBaseName pe.1 oe.1 oe.2 ++ "RequestContent", s) ∈ bodyRegs spec := by
        rw [bodyRegs]
        refine List.mem_flatMap.mpr ⟨pe, hpe, ?_⟩
        refine List.mem_flatMap.mpr ⟨oe, hoe, ?_⟩
        rw [opRegs, hrb]
        refine List.mem_append_right _ ?_
        show _ ∈ ((bodyNeedsHoist rb).map
          (fun s2 => (opBaseName pe.1 oe.1 oe.2 ++ "RequestContent", s2))).toList
        rw [hb]
        exact List.mem_cons_self _ _
      exact alistGet_foldl_of_mem hnd hreg

/-- Witness for C6: the `getWidget` operation's inline `200` object body is
registered as `GetWidget200Response` and replaced by the `$ref` to it. -/
theorem claim_C6_witness :
    ((bodyRegs exSpecW).map Prod.fst).Nodup ∧
    alistGet (hoistOperationBodies exSpecW).schemas "GetWidget200Response"
      = some exWidgetBodySchema ∧
    jsonSchemaOf (rewriteBody "GetWidget200Response"
        (⟨some [("application/json", ⟨some exWidgetBodySchema⟩)]⟩ : BodyObject))
      = some (.ref ("#/components/schemas/" ++ "GetWidget200Response")) := by
  have h := claim_C6_body_hoisting exSpecW (by decide)
    ("/widget", ⟨[("get", exOpW)]⟩) (List.mem_cons_self _ _)
    ("get", exOpW) (List.mem_cons_self _ _)
  have h3 := h.2.2.1 ("200", (⟨some [("application/json", ⟨some exWidgetBodySchema⟩)]⟩ :
      BodyObject)) (List.mem_cons_self _ _) exWidgetBodySchema rfl
  have hname : opBaseName "/widget" "get" exOpW ++ "200" ++ "Response"
      = "GetWidget200Response" := rfl
  rw [hname] at h3
  exact ⟨by decide, h3.2.2, h3.2.1⟩

/-! ## Claim theorems: enrichment-pass termination and visit discipline (C4) -/

/-- **C4 counterexample**: the metadata pass (`mutateWithOpenapiSchemaProperties`)
does not process each node at most once.  Its composed-branch walk carries no
visited check and the function body has no entry guard, so a composition
branch property that also matches a declared object property is processed
twice: on a model `M` (`all-of`, one branch property `x`) against a schema
declaring both `properties.x` and one `allOf` entry, the trace is
`[0, 1, 1]` — node `1` is processed twice. -/
theorem claim_C4_counterexample : ¬ Claim4Statement := by
  intro h
  have ht := h.2.2 exSpecCyc [] [] 4 exCompM exSchemaM
  have he : (mutateMetaF exSpecCyc [] [] 4 exCompM exSchemaM ⟨[], [], []⟩).trace
      = [0, 1, 1] := rfl
  rw [he] at ht
  exact absurd ht (by decide)

set_option maxHeartbeats 2000000 in
/-- **C4 (amended)**: composite resolution attaches each composed model's info
at most once (duplicate-free info keys on success); the link-completion walk
processes each node at most once for *every* input, fuel and invariant-sound
starting state, and so does the whole links-pass driver with its pass-wide
visited set; on the claim's cyclic examples — a self-referential array and a
self-referential dictionary — both the links pass and the metadata pass
complete with fuel to spare (the result is fuel-stable) and process each node
exactly once.  The metadata pass does *not* process each node at most once in
general (`claim_C4_counterexample`): its composed-branch walk skips the
visited check. -/
theorem claim_C4_amended :
    (∀ models st, ensureCompositeModels models = .ok st → (st.info.map Prod.fst).Nodup) ∧
    (∀ spec mbn fuel model schema st, LinkInv st →
      (ensureLinksF spec mbn fuel model schema st).trace.Nodup) ∧
    (∀ spec models fuel, (ensureModelLinksModels spec models fuel).trace.Nodup) ∧
    ((ensureModelLinksModels exSpecCyc [exArrM, exDictM] 5).trace = [10, 11] ∧
     ensureModelLinksModels exSpecCyc [exArrM, exDictM] 5
       = ensureModelLinksModels exSpecCyc [exArrM, exDictM] 6) ∧
    ((mutateMetaF exSpecCyc exMbnCyc
        (ensureModelLinksModels exSpecCyc [exArrM, exDictM] 5).links 5 exArrM
        (resolveIfRef exSpecCyc (.ref "#/components/schemas/A")) ⟨[], [], []⟩).trace
        = [10] ∧
     (mutateMetaF exSpecCyc exMbnCyc [(10, "A"), (11, "D")] 5 exDictM exSchemaD
        ⟨[], [], []⟩).trace = [11] ∧
     mutateMetaF exSpecCyc exMbnCyc [(10, "A"), (11, "D")] 5 exDictM exSchemaD ⟨[], [], []⟩
       = mutateMetaF exSpecCyc exMbnCyc [(10, "A"), (11, "D")] 6 exDictM exSchemaD
           ⟨[], [], []⟩) := by
  refine ⟨?_, ?_, ?_, ⟨by decide, by decide⟩, by decide, by decide, by decide⟩
  · intro models st h
    exact ensureComposite_trace_nodup h
  · intro spec mbn fuel model schema st hst
    exact (ensureLinksF_inv spec mbn fuel model schema st hst).1
  · intro spec models fuel
    exact (ensureModelLinksModels_inv spec models fuel).1

/-- Witness for C4 (amended): the composite chain's info keys are
duplicate-free, and the links walk over the self-referential array model from
the empty state has a duplicate-free trace. -/
theorem claim_C4_witness :
    ((CompSt.mk ["B", "A"] [("B", ⟨["C"], []⟩), ("A", ⟨["B"], []⟩)]).info.map
      Prod.fst).Nodup ∧
    (ensureLinksF exSpecCyc exMbnCyc 5 exArrM exSchemaA ⟨[], [], []⟩).trace.Nodup := by
  refine ⟨?_, ?_⟩
  · exact claim_C4_amended.1 exChain _ rfl
  · exact claim_C4_amended.2.1 exSpecCyc exMbnCyc 5 exArrM exSchemaA ⟨[], [], []⟩
      ⟨List.nodup_nil, fun i hi => absurd hi (List.not_mem_nil i)⟩
